import Mathlib

/-
Verification of the rumor-spreading simulation (project.py).

The development shallowly embeds the two core components of the source:

* `generate_new_graph` (network generation): adjacency matrices are lists of
  rows of natural numbers (the source uses a 0/1 numpy float matrix), the
  rejection-sampled seed draw and the preferential-attachment choices are
  supplied as explicit oracles (the source draws them from the global numpy
  random stream; only which outcomes are possible matters for the claims),
  and the trust matrix eta is built by the same double loop as the source.

* `run_rumors` (simulation engine): per-node memories are an ordered list
  plus a count function (the source keeps a python list and a Counter),
  5-bit rumor codes are `Fin 32` (leftmost character of the source's
  5-character bit string is the most significant bit), and every random
  draw of a round (tie-breaking index, weighted-selection index, mutation
  coin, bit position, acceptance coins) is an explicit oracle argument.

Entropy values are real numbers (the source uses floats); they gate nothing
in the embedded state transition because the mutation coin is an oracle, so
all memory dynamics stay fully computable.  Statistics that are pure
read-only aggregates of the state (avgH, varH, maxH, minH, opinion_frag)
are not modelled; the per-node entropy array H, which the claims mention,
is modelled.
-/

/-! ### Adjacency matrices (project.py, generate_new_graph) -/

/-- Adjacency matrix as a list of rows, entries 0 or 1 (the source keeps a
square numpy array of 0.0/1.0 floats). -/
abbrev Mat := List (List Nat)

/-- Entry access `edges[i][j]` with 0 outside the matrix. -/
def entryAt (M : Mat) (i j : Nat) : Nat := (M.getD i []).getD j 0

/-- Row sum `sum(edges[i,:])`, the degree of node i. -/
def rowsum (M : Mat) (i : Nat) : Nat := (M.getD i []).sum

/-- Indices of nonzero entries of a row, ascending: `np.flatnonzero(edges[i,:])`. -/
def flatnonzero (row : List Nat) : List Nat :=
  (List.range row.length).filter (fun k => row.getD k 0 ≠ 0)

/-- Exit condition of the seed rejection loop: no node of the drawn seed
graph has degree 0 (the loop sets `repeat = True` whenever some row sums
to 0, discarding the whole draw). -/
def seedAccept (M : Mat) : Bool :=
  (List.range M.length).all (fun i => 1 ≤ rowsum M i)

/-- Seed phase of generate_new_graph: keep drawing until a draw passes
`seedAccept`.  The stream of (already thresholded, symmetric, zero-diagonal)
candidate draws is the oracle `draws`; `fuel` bounds the number of
iterations of the source's unbounded `while repeat` loop. -/
def firstAccepted (draws : Nat → Mat) : Nat → Option Mat
  | 0 => none
  | fuel + 1 =>
    if seedAccept (draws 0) then some (draws 0)
    else firstAccepted (fun k => draws (k + 1)) fuel

/-- One growth step of generate_new_graph: append to every existing row the
indicator of whether that node was chosen, and append the new node's row
(the chosen indicators followed by a 0 diagonal entry).  `chosen` is the
oracle outcome of `np.random.choice(range(n), m, replace=False, p=...)`. -/
def growStep (M : Mat) (chosen : List Nat) : Mat :=
  (M.mapIdx (fun i row => row ++ [if i ∈ chosen then 1 else 0])) ++
    [(List.range M.length).map (fun i => if i ∈ chosen then 1 else 0) ++ [0]]

/-- Growth phase: fold the T growth steps over the seed graph. -/
def grow (M : Mat) (choices : List (List Nat)) : Mat :=
  choices.foldl growStep M

/-- Well-formedness of the oracle attachment choices: starting from a graph
of n nodes, every step picks m distinct existing nodes (what
`np.random.choice(range(n), m, replace=False, p=...)` returns whenever it
does not raise), and the node count grows by one per step. -/
def choicesOK (m : Nat) : Nat → List (List Nat) → Prop
  | _, [] => True
  | n, c :: cs => (c.length = m ∧ c ≠ [] ∧ c.Nodup ∧ ∀ x ∈ c, x < n) ∧ choicesOK m (n + 1) cs

/-- Python max over a list of reals; junk value 0 for the empty list (the
source raises there, which never happens on a graph with no isolated node). -/
def maxList (l : List ℝ) : ℝ :=
  match l with
  | [] => 0
  | h :: t => t.foldl max h

/-- Body of the trust computation, exactly the source expression
`sum(edges[j,:])**beta / max([sum(edges[k,:])**beta for k in
np.flatnonzero(edges[i,:])])`. -/
noncomputable def etaExpr (edges : Mat) (beta : ℝ) (i j : Nat) : ℝ :=
  (rowsum edges j : ℝ) ^ beta /
    maxList ((flatnonzero (edges.getD i [])).map (fun k => (rowsum edges k : ℝ) ^ beta))

/-- Trust-matrix double loop of generate_new_graph:
`for i in range(n): for j in range(i, n): eta[i,j] = etaExpr i j; eta[j,i] = eta[i,j]`,
starting from `eta = np.zeros(...)`.  The matrix is represented as a
function on index pairs. -/
noncomputable def etaLoop (edges : Mat) (beta : ℝ) : Nat → Nat → ℝ :=
  (List.range edges.length).foldl
    (fun M i =>
      ((List.range edges.length).drop i).foldl
        (fun M2 j => fun a b =>
          if (a = i ∧ b = j) ∨ (a = j ∧ b = i) then etaExpr edges beta i j else M2 a b)
        M)
    (fun _ _ => 0)

/-- Full generate_new_graph: seed rejection loop, growth phase, trust
computation.  Returns the pair (eta, edges) like the source (saving the two
arrays to disk is I/O and is not modelled). -/
noncomputable def generate_new_graph (beta : ℝ) (draws : Nat → Mat) (fuel : Nat)
    (choices : List (List Nat)) : Option ((Nat → Nat → ℝ) × Mat) :=
  (firstAccepted draws fuel).map (fun s =>
    let edges := grow s choices
    (etaLoop edges beta, edges))

/-- Shape of every matrix the seed thresholding step can produce: square,
0/1 entries, symmetric, zero diagonal. -/
def SeedShape (M : Mat) : Prop :=
  (∀ r ∈ M, r.length = M.length) ∧
  (∀ i < M.length, ∀ j < M.length, entryAt M i j = 0 ∨ entryAt M i j = 1) ∧
  (∀ i < M.length, ∀ j < M.length, entryAt M i j = entryAt M j i) ∧
  (∀ i < M.length, entryAt M i i = 0)

/-- No node of the graph has degree 0. -/
def noIsolated (M : Mat) : Prop := ∀ i < M.length, 1 ≤ rowsum M i

/-! ### Rumor codes and node memories (project.py, get_mc / run_rumors) -/

/-- A 5-bit rumor code.  The source uses 5-character bit strings; they are
embedded as their binary value, the leftmost character being bit 4. -/
abbrev Code := Fin 32

/-- Bit flip of the mutation step: the source builds
`rumor[0:b] + str(1-int(rumor[b])) + rumor[b+1:]`, i.e. it flips the
character at position b, which is bit 4-b of the value. -/
def flipCode (c : Code) (b : Fin 5) : Code :=
  ⟨(c.val ^^^ 2 ^ (4 - b.val)) % 32, Nat.mod_lt _ (by norm_num)⟩

/-- Increment of a Counter entry: `count[c] += 1`. -/
def bump (cnt : Code → Nat) (c : Code) : Code → Nat :=
  fun x => if x = c then cnt x + 1 else cnt x

/-- Decrement of a Counter entry followed by `del` when the count reaches 0:
absent keys and keys with count 0 are both represented by count 0. -/
def drop1 (cnt : Code → Nat) (c : Code) : Code → Nat :=
  fun x => if x = c then cnt x - 1 else cnt x

/-- Per-node memory: the ordered list `mem_list[i]` plus the Counter
`mem_dict[i]` (as its count function; a key is present iff its count is
positive, which the source maintains by deleting keys that reach 0). -/
structure NodeMemory where
  memList : List Code
  memCount : Code → Nat

/-- Total number of rumor instances in a Counter: `sum(count.values())`. -/
def sumCounts (cnt : Code → Nat) : Nat := ∑ c : Code, cnt c

/-- Counter/list consistency: the count function is exactly the multiplicity
function of the ordered list. -/
def Consistent (m : NodeMemory) : Prop := ∀ c : Code, m.memCount c = m.memList.count c

/-- Insertion with FIFO eviction (the update loop of run_rumors):
`mem_dict[j][up] += 1; mem_list[j] += [up]; if len > L: pop(0), decrement,
del-if-0`. -/
def insertMem (L : Nat) (m : NodeMemory) (c : Code) : NodeMemory :=
  if L < (m.memList ++ [c]).length then
    { memList := (m.memList ++ [c]).tail
      memCount := drop1 (bump m.memCount c) ((m.memList ++ [c]).headD c) }
  else { memList := m.memList ++ [c], memCount := bump m.memCount c }

/-- In-place mutation of a held rumor (the mutate branch of run_rumors):
bump the new code, drop the old code, and relabel the first occurrence of
the old code in the ordered list (the source's `for j ...: if == rumor:
mem_list[i][j] = new_rumor; break` is exactly replace-first-occurrence). -/
def mutateHeld (m : NodeMemory) (oldc newc : Code) : NodeMemory :=
  { memList := m.memList.replace oldc newc
    memCount := drop1 (bump m.memCount newc) oldc }

/-! ### get_mc: majority selection with uniform tie-breaking -/

/-- Keys of the Counter (codes with positive count).  The enumeration order
of a python Counter is insertion order; a canonical order is used here, the
claims below only depend on the underlying set. -/
def presentCodes (cnt : Code → Nat) : List Code :=
  (List.finRange 32).filter (fun c => cnt c ≠ 0)

/-- Embedding of `count.most_common()`: the (key, count) pairs sorted by
descending count (python uses a stable sort on the same key). -/
def mclist (cnt : Code → Nat) : List (Code × Nat) :=
  ((presentCodes cnt).map (fun c => (c, cnt c))).mergeSort (fun p q => q.2 ≤ p.2)

/-- The source's `largest_num = mclist[0][1]` (junk 0 on an empty Counter,
where the source raises IndexError). -/
def largest_num (cnt : Code → Nat) : Nat := ((mclist cnt).headD (0, 0)).2

/-- The source's `largest_vals = [i for (i,j) in mclist if j == largest_num]`. -/
def largest_vals (cnt : Code → Nat) : List Code :=
  ((mclist cnt).filter (fun p => p.2 = largest_num cnt)).map Prod.fst

/-- get_mc with the uniform draw of `np.random.choice(largest_vals)` made
explicit: oracle index k selects position k mod length. -/
def get_mc (cnt : Code → Nat) (k : Nat) : Code :=
  (largest_vals cnt).getD (k % (largest_vals cnt).length) 0

/-- Weighted rumor selection of the `mcr = False` branch:
`np.random.choice(list(mem_dict[i]), p=counts/total)` can return exactly the
present keys (all weights are positive); the oracle index picks one. -/
def weightedPick (cnt : Code → Nat) (k : Nat) : Code :=
  (presentCodes cnt).getD (k % (presentCodes cnt).length) 0

/-- Shannon entropy of a memory, the source expression
`sum(-val/totrum * log2(val/totrum) for val in count.values())`. -/
noncomputable def entropy (cnt : Code → Nat) : ℝ :=
  ∑ c : Code,
    if cnt c ≠ 0 then
      -((cnt c : ℝ) / (sumCounts cnt : ℝ)) * Real.logb 2 ((cnt c : ℝ) / (sumCounts cnt : ℝ))
    else 0

/-! ### Simulation engine (project.py, run_rumors) -/

/-- Static configuration of one run_rumors call: memory capacity L, the
seeded node init_person, the sampled liar and truth-teller index arrays, the
broadcast mode mcr, and the adjacency (row i of `edges` as the predicate
`adj i`). -/
structure Config (n : Nat) where
  L : Nat
  initPerson : Fin n
  liars : List (Fin n)
  truths : List (Fin n)
  mcr : Bool
  adj : Fin n → Fin n → Bool

/-- Oracle for every random draw of one round: tie-breaking index for
get_mc, index for the weighted selection, mutation coin, flipped bit
position, and acceptance coin per directed edge (broadcaster, receiver). -/
structure RoundDec (n : Nat) where
  tie : Fin n → Nat
  wsel : Fin n → Nat
  mutCoin : Fin n → Bool
  flip : Fin n → Fin 5
  acc : Fin n → Fin n → Bool

/-- State carried through one round of run_rumors: the memories, the
per-node entropy array H, and the queued insertions `updates`. -/
structure MidState (n : Nat) where
  mem : Fin n → NodeMemory
  H : Fin n → ℝ
  upd : Fin n → List Code

/-- Role test `i in liars or i in truths`. -/
def isSpecial {n : Nat} (cfg : Config n) (i : Fin n) : Prop :=
  i ∈ cfg.liars ∨ i ∈ cfg.truths

instance {n : Nat} (cfg : Config n) (i : Fin n) : Decidable (isSpecial cfg i) :=
  inferInstanceAs (Decidable (_ ∨ _))

/-- Neighbor iteration order `for j in np.flatnonzero(edges[i,:])`:
ascending indices with a nonzero adjacency entry. -/
def neighborsList {n : Nat} (cfg : Config n) (i : Fin n) : List (Fin n) :=
  (List.finRange n).filter (fun j => cfg.adj i j)

/-- Inner neighbor loop of a broadcasting node i: receivers that are liars
or truth-tellers always reject, others accept on their oracle coin;
accepted rumors are queued in `updates[j]`. -/
def pushUpdates {n : Nat} (cfg : Config n) (d : RoundDec n) (st : MidState n)
    (i : Fin n) (rumor : Code) : MidState n :=
  { st with
    upd := (neighborsList cfg i).foldl
      (fun u j =>
        if isSpecial cfg j then u
        else if d.acc i j then Function.update u j (u j ++ [rumor]) else u)
      st.upd }

/-- Body of the per-node loop of a round, for node i: skip empty memories;
liars and truth-tellers broadcast their majority rumor unchanged; ordinary
nodes select a rumor (majority or weighted), record their entropy in H, and
on a positive mutation coin flip one bit of the selected rumor and relabel
it inside their own memory before broadcasting it. -/
noncomputable def nodeIter {n : Nat} (cfg : Config n) (d : RoundDec n)
    (st : MidState n) (i : Fin n) : MidState n :=
  let m := st.mem i
  if sumCounts m.memCount ≠ 0 then
    if isSpecial cfg i then
      pushUpdates cfg d st i (get_mc m.memCount (d.tie i))
    else
      let rumor0 := if cfg.mcr then get_mc m.memCount (d.tie i)
                    else weightedPick m.memCount (d.wsel i)
      let H2 := Function.update st.H i (entropy m.memCount)
      if d.mutCoin i then
        let nr := flipCode rumor0 (d.flip i)
        pushUpdates cfg d
          { mem := Function.update st.mem i (mutateHeld m rumor0 nr), H := H2, upd := st.upd }
          i nr
      else
        pushUpdates cfg d { mem := st.mem, H := H2, upd := st.upd } i rumor0
  else st

/-- Second loop of a round: apply every queued insertion
(`for j, update_list ...: for up in update_list: insert`). -/
def applyUpdates {n : Nat} (L : Nat) (st : MidState n) : MidState n :=
  { st with mem := fun j => (st.upd j).foldl (insertMem L) (st.mem j) }

/-- One full round of run_rumors exactly as the source executes it: the
per-node loop runs sequentially over nodes 0..n-1 (each iteration mutating
the shared state in place), then every queued insertion is applied. -/
noncomputable def seqRound {n : Nat} (cfg : Config n) (d : RoundDec n)
    (mem : Fin n → NodeMemory) (H : Fin n → ℝ) : MidState n :=
  applyUpdates cfg.L
    ((List.finRange n).foldl (nodeIter cfg d) { mem := mem, H := H, upd := fun _ => [] })

/-! ### Synchronous (specification-shaped) form of one round -/

/-- Rumor broadcast by node i this round, computed from node i's
start-of-round memory alone; none when the memory is empty. -/
def bcast {n : Nat} (cfg : Config n) (d : RoundDec n) (i : Fin n)
    (m : NodeMemory) : Option Code :=
  if sumCounts m.memCount ≠ 0 then
    if isSpecial cfg i then some (get_mc m.memCount (d.tie i))
    else
      let rumor0 := if cfg.mcr then get_mc m.memCount (d.tie i)
                    else weightedPick m.memCount (d.wsel i)
      some (if d.mutCoin i then flipCode rumor0 (d.flip i) else rumor0)
  else none

/-- Node i's own memory after step 1, from its start-of-round memory alone:
only an ordinary node with a positive mutation coin relabels its selected
rumor. -/
def localMem {n : Nat} (cfg : Config n) (d : RoundDec n) (i : Fin n)
    (m : NodeMemory) : NodeMemory :=
  if sumCounts m.memCount ≠ 0 ∧ ¬isSpecial cfg i ∧ d.mutCoin i then
    let rumor0 := if cfg.mcr then get_mc m.memCount (d.tie i)
                  else weightedPick m.memCount (d.wsel i)
    mutateHeld m rumor0 (flipCode rumor0 (d.flip i))
  else m

/-- Node i's entropy slot after step 1: ordinary nodes with a non-empty
memory record the entropy of their start-of-round memory, everyone else
keeps the previous value. -/
noncomputable def localH {n : Nat} (cfg : Config n) (_d : RoundDec n) (i : Fin n)
    (m : NodeMemory) (h : ℝ) : ℝ :=
  if sumCounts m.memCount ≠ 0 ∧ ¬isSpecial cfg i then entropy m.memCount else h

/-- Queued insertions broadcaster i contributes to receiver j, as a function
of i's start-of-round memory: empty unless i broadcasts, (i,j) is an edge,
j is ordinary and j's acceptance coin is positive. -/
def contribOf {n : Nat} (cfg : Config n) (d : RoundDec n) (m : NodeMemory)
    (i j : Fin n) : List Code :=
  match bcast cfg d i m with
  | none => []
  | some r => if cfg.adj i j ∧ ¬isSpecial cfg j ∧ d.acc i j then [r] else []

/-- All insertions queued for receiver j this round, in ascending
broadcaster order, each computed from that broadcaster's start-of-round
memory. -/
def syncUpd {n : Nat} (cfg : Config n) (d : RoundDec n)
    (mem : Fin n → NodeMemory) (j : Fin n) : List Code :=
  ((List.finRange n).map (fun i => contribOf cfg d (mem i) i j)).flatten

/-- Synchronous description of one round, following the specification: every
broadcast selection and acceptance decision reads the start-of-round
memories (modified only by the broadcaster's own in-step mutation), and all
queued insertions are applied afterwards. -/
noncomputable def syncRound {n : Nat} (cfg : Config n) (d : RoundDec n)
    (mem : Fin n → NodeMemory) (H : Fin n → ℝ) : MidState n :=
  { mem := fun j => (syncUpd cfg d mem j).foldl (insertMem cfg.L) (localMem cfg d j (mem j))
    H := fun j => localH cfg d j (mem j) (H j)
    upd := syncUpd cfg d mem }

/-! ### Seeding and the multi-round run -/

/-- Direct seeding append used before the round loop
(`mem_dict[x][c] += 1; mem_list[x] += [c]`, no capacity check). -/
def seedAppend {n : Nat} (mem : Fin n → NodeMemory) (x : Fin n) (c : Code) :
    Fin n → NodeMemory :=
  Function.update mem x
    { memList := (mem x).memList ++ [c], memCount := bump (mem x).memCount c }

/-- Liar code 11111 and truth code 00000. -/
def liarCode : Code := 31

/-- Truth code 00000. -/
def truthCode : Code := 0

/-- Initial memories of a run: all empty, then one 11111 per liar, one 00000
per truth-teller, and one 00000 for init_person, in the source's order. -/
def seedMems {n : Nat} (cfg : Config n) : Fin n → NodeMemory :=
  let m0 : Fin n → NodeMemory := fun _ => { memList := [], memCount := fun _ => 0 }
  let m1 := cfg.liars.foldl (fun m l => seedAppend m l liarCode) m0
  let m2 := cfg.truths.foldl (fun m t => seedAppend m t truthCode) m1
  seedAppend m2 cfg.initPerson truthCode

/-- State after t rounds: memories and the entropy array H (initialized to
all zeros by the source). -/
noncomputable def stateAt {n : Nat} (cfg : Config n) (decs : Nat → RoundDec n) :
    Nat → ((Fin n → NodeMemory) × (Fin n → ℝ))
  | 0 => (seedMems cfg, fun _ => 0)
  | t + 1 =>
    let p := stateAt cfg decs t
    let st := seqRound cfg (decs t) p.1 p.2
    (st.mem, st.H)

/-- Total number of insertions ever performed into node i's memory after t
rounds: the seeded instances plus one per queued-and-applied insertion. -/
noncomputable def totIns {n : Nat} (cfg : Config n) (decs : Nat → RoundDec n) :
    Nat → Fin n → Nat
  | 0, i => ((seedMems cfg i).memList).length
  | t + 1, i => totIns cfg decs t i + (syncUpd cfg (decs t) (stateAt cfg decs t).1 i).length

/-- Full run_rumors: the two np.random.choice samplings of the liar and
truth-teller arrays raise ValueError when asked for more elements than their
population holds (modelled as an error result); otherwise the run seeds the
memories and executes num_rounds rounds.  The oracle lists lchoice/tchoice
stand for the samples the source draws.  Gif rendering and the aggregate
statistics arrays are read-only observations and are not modelled; the run
returns the final state. -/
noncomputable def run_rumors (n : Nat) (init : Fin n) (adj : Fin n → Fin n → Bool)
    (mcr : Bool) (L num_rounds liarnum truthnum : Nat)
    (lchoice tchoice : List (Fin n)) (decs : Nat → RoundDec n) :
    Except String ((Fin n → NodeMemory) × (Fin n → ℝ)) :=
  let liarPop := (List.finRange n).filter (fun k => k ≠ init)
  if liarPop.length < liarnum then Except.error "ValueError" else
  let truthPop := (List.finRange n).filter (fun k => ¬ k ∈ lchoice ∧ k ≠ init)
  if truthPop.length < truthnum then Except.error "ValueError" else
  let cfg : Config n :=
    { L := L, initPerson := init, liars := lchoice, truths := tchoice, mcr := mcr, adj := adj }
  Except.ok (stateAt cfg decs num_rounds)

/-! ### Counter arithmetic helpers -/

/-- Bumping then dropping the same entry restores a counter whose entry was
positive. -/
theorem bump_drop1_cancel (cnt : Code → Nat) (c : Code) (h : 1 ≤ cnt c) :
    bump (drop1 cnt c) c = cnt := by
  funext x
  show (if x = c then drop1 cnt c x + 1 else drop1 cnt c x) = cnt x
  by_cases hx : x = c
  · rw [if_pos hx]
    show (if x = c then cnt x - 1 else cnt x) + 1 = cnt x
    rw [if_pos hx, hx]
    omega
  · rw [if_neg hx]
    show (if x = c then cnt x - 1 else cnt x) = cnt x
    rw [if_neg hx]

/-- Bumping adds one to the total count. -/
theorem sumCounts_bump (cnt : Code → Nat) (c : Code) :
    sumCounts (bump cnt c) = sumCounts cnt + 1 := by
  unfold sumCounts bump
  have h : ∀ x : Code, (if x = c then cnt x + 1 else cnt x) = cnt x + (if x = c then 1 else 0) := by
    intro x; by_cases hx : x = c <;> simp [hx]
  simp only [h, Finset.sum_add_distrib, Finset.sum_ite_eq', Finset.mem_univ, if_true]

/-- Dropping a positive entry removes one from the total count. -/
theorem sumCounts_drop1 (cnt : Code → Nat) (c : Code) (h : 1 ≤ cnt c) :
    sumCounts (drop1 cnt c) + 1 = sumCounts cnt := by
  have h2 := sumCounts_bump (drop1 cnt c) c
  rw [bump_drop1_cancel cnt c h] at h2
  omega

/-- Total multiplicity of a list over the whole alphabet is its length. -/
theorem sum_count_univ (l : List Code) : ∑ c : Code, l.count c = l.length := by
  induction l with
  | nil => simp
  | cons a t ih =>
    have h : ∀ c : Code, List.count c (a :: t) = t.count c + (if a = c then 1 else 0) := by
      intro c
      rw [List.count_cons]
      by_cases hc : a = c <;> simp [hc]
    simp only [h, Finset.sum_add_distrib, ih, Finset.sum_ite_eq, Finset.mem_univ, if_true,
      List.length_cons]

/-- Consistency transfers total counts to list length. -/
theorem sumCounts_eq_length (m : NodeMemory) (hc : Consistent m) :
    sumCounts m.memCount = m.memList.length := by
  unfold sumCounts
  calc ∑ c : Code, m.memCount c = ∑ c : Code, m.memList.count c :=
        Finset.sum_congr rfl (fun c _ => hc c)
    _ = m.memList.length := sum_count_univ m.memList

/-! ### Structure of replace-first-occurrence -/

/-- Decomposition of a list at the first occurrence of a member, together
with the effect of List.replace and the value of indexOf there. -/
theorem replace_decomp (l : List Code) (a b : Code) (ha : a ∈ l) :
    ∃ l₁ l₂, l = l₁ ++ a :: l₂ ∧ ¬ a ∈ l₁ ∧ l.replace a b = l₁ ++ b :: l₂ ∧
      List.indexOf a l = l₁.length := by
  induction l with
  | nil => cases ha
  | cons x t ih =>
    by_cases hx : x = a
    · refine ⟨[], t, by simp [hx], by simp, ?_, ?_⟩
      · subst hx; simp [List.replace_cons]
      · subst hx; simp [List.indexOf_cons]
    · have hat : a ∈ t := by
        rcases List.mem_cons.mp ha with h | h
        · exact absurd h.symm hx
        · exact h
      rcases ih hat with ⟨l₁, l₂, hdec, hnot, hrep, hidx⟩
      refine ⟨x :: l₁, l₂, by simp [hdec], ?_, ?_, ?_⟩
      · intro hmem
        rcases List.mem_cons.mp hmem with h | h
        · exact hx h.symm
        · exact hnot h
      · have hbeq : (a == x) = false := by
          simp [beq_iff_eq]; exact fun h => hx h.symm
        simp [List.replace_cons, hbeq, hrep]
      · have hbeq : (x == a) = false := by simp [beq_iff_eq]; exact hx
        simp [List.indexOf_cons, hbeq, hidx]

/-! ### Claim C10: in-place mutation relabels exactly the oldest instance -/

instance (m : NodeMemory) : Decidable (Consistent m) :=
  inferInstanceAs (Decidable (∀ c : Code, m.memCount c = m.memList.count c))

/-- C10: when a held rumor mutates, the in-place mutation relabels exactly
one entry of the node's ordered memory sequence, namely the earliest
(oldest) occurrence of the old code, changing its label to the new code;
the sequence length, the total of the frequency counts, and every other
position are unchanged, and even when several instances of the old code are
held only that single oldest instance is relabeled (the old code's count
falls by exactly one, the new code's rises by exactly one). -/
theorem mutateHeld_relabels_oldest (m : NodeMemory) (oldc newc : Code)
    (hc : Consistent m) (hmem : oldc ∈ m.memList) (hne : newc ≠ oldc) :
    (mutateHeld m oldc newc).memList.length = m.memList.length ∧
    sumCounts (mutateHeld m oldc newc).memCount = sumCounts m.memCount ∧
    (mutateHeld m oldc newc).memList.getD (List.indexOf oldc m.memList) 0 = newc ∧
    m.memList.getD (List.indexOf oldc m.memList) 0 = oldc ∧
    (∀ k, k < List.indexOf oldc m.memList → m.memList.getD k 0 ≠ oldc) ∧
    (∀ k, k ≠ List.indexOf oldc m.memList →
      (mutateHeld m oldc newc).memList.getD k 0 = m.memList.getD k 0) ∧
    (mutateHeld m oldc newc).memCount oldc + 1 = m.memCount oldc ∧
    (mutateHeld m oldc newc).memCount newc = m.memCount newc + 1 ∧
    (∀ c, c ≠ oldc → c ≠ newc → (mutateHeld m oldc newc).memCount c = m.memCount c) := by
  rcases replace_decomp m.memList oldc newc hmem with ⟨l₁, l₂, hdec, hnot, hrep, hidx⟩
  have hcount : 1 ≤ m.memCount oldc := by
    rw [hc oldc, hdec, List.count_append, List.count_cons_self]
    omega
  have hbump : bump m.memCount newc oldc = m.memCount oldc := by
    unfold bump
    rw [if_neg (fun h => hne h.symm)]
  refine ⟨?_, ?_, ?_, ?_, ?_, ?_, ?_, ?_, ?_⟩
  · exact List.length_replace
  · have h1 : 1 ≤ bump m.memCount newc oldc := by rw [hbump]; exact hcount
    have h2 := sumCounts_drop1 (bump m.memCount newc) oldc h1
    have h3 := sumCounts_bump m.memCount newc
    show sumCounts (drop1 (bump m.memCount newc) oldc) = sumCounts m.memCount
    omega
  · show (m.memList.replace oldc newc).getD (List.indexOf oldc m.memList) 0 = newc
    rw [hidx, hrep, List.getD_append_right l₁ _ _ _ (le_refl _), Nat.sub_self]
    rfl
  · rw [hidx, hdec, List.getD_append_right l₁ _ _ _ (le_refl _), Nat.sub_self]
    rfl
  · intro k hk
    rw [hidx] at hk
    rw [hdec, List.getD_append _ _ _ _ hk, List.getD_eq_getElem _ _ hk]
    intro hcontr
    exact hnot (hcontr ▸ List.getElem_mem hk)
  · intro k hk
    rw [hidx] at hk
    show (m.memList.replace oldc newc).getD k 0 = m.memList.getD k 0
    rw [hrep, hdec]
    rcases Nat.lt_or_ge k l₁.length with hlt | hge
    · rw [List.getD_append _ _ _ _ hlt, List.getD_append _ _ _ _ hlt]
    · rw [List.getD_append_right _ _ _ _ hge, List.getD_append_right _ _ _ _ hge]
      obtain ⟨j, hj⟩ : ∃ j, k - l₁.length = j + 1 := ⟨k - l₁.length - 1, by omega⟩
      rw [hj]
      rfl
  · show drop1 (bump m.memCount newc) oldc oldc + 1 = m.memCount oldc
    unfold drop1
    rw [if_pos rfl, hbump]
    omega
  · show drop1 (bump m.memCount newc) oldc newc = m.memCount newc + 1
    unfold drop1 bump
    rw [if_neg hne, if_pos rfl]
  · intro c hco hcn
    show drop1 (bump m.memCount newc) oldc c = m.memCount c
    unfold drop1 bump
    rw [if_neg hco, if_neg hcn]

/-- Concrete memory holding codes [5, 3, 5] for the C10 witness. -/
def memEx10 : NodeMemory :=
  { memList := [5, 3, 5]
    memCount := fun c => if c = 5 then 2 else if c = 3 then 1 else 0 }

/-- Witness for C10 at a memory holding two instances of the old code. -/
theorem mutateHeld_relabels_oldest_witness :
    (Consistent memEx10 ∧ (5 : Code) ∈ memEx10.memList ∧ (2 : Code) ≠ 5) ∧
    ((mutateHeld memEx10 5 2).memList.length = memEx10.memList.length ∧
    sumCounts (mutateHeld memEx10 5 2).memCount = sumCounts memEx10.memCount ∧
    (mutateHeld memEx10 5 2).memList.getD (List.indexOf 5 memEx10.memList) 0 = 2 ∧
    memEx10.memList.getD (List.indexOf 5 memEx10.memList) 0 = 5 ∧
    (∀ k, k < List.indexOf 5 memEx10.memList → memEx10.memList.getD k 0 ≠ 5) ∧
    (∀ k, k ≠ List.indexOf 5 memEx10.memList →
      (mutateHeld memEx10 5 2).memList.getD k 0 = memEx10.memList.getD k 0) ∧
    (mutateHeld memEx10 5 2).memCount 5 + 1 = memEx10.memCount 5 ∧
    (mutateHeld memEx10 5 2).memCount 2 = memEx10.memCount 2 + 1 ∧
    (∀ c, c ≠ 5 → c ≠ 2 → (mutateHeld memEx10 5 2).memCount c = memEx10.memCount c)) :=
  ⟨⟨by decide, by decide, by decide⟩,
    mutateHeld_relabels_oldest memEx10 5 2 (by decide) (by decide) (by decide)⟩

/-! ### Claim C7: majority selection returns a maximal code, ties uniform -/

/-- Embedded most_common() is a permutation of the Counter's (key, count)
pairs. -/
theorem mclist_perm (cnt : Code → Nat) :
    (mclist cnt).Perm ((presentCodes cnt).map (fun c => (c, cnt c))) :=
  List.mergeSort_perm _ _

/-- Embedded most_common() is sorted by descending count. -/
theorem mclist_sorted (cnt : Code → Nat) :
    List.Pairwise (fun p q : Code × Nat => (decide (q.2 ≤ p.2)) = true) (mclist cnt) := by
  apply List.sorted_mergeSort
  · intro a b c hab hbc
    simp only [decide_eq_true_eq] at *
    omega
  · intro a b
    simp only [Bool.or_eq_true, decide_eq_true_eq]
    omega

/-- Every pair listed by most_common() is a genuine (key, count) pair with a
positive count. -/
theorem mclist_mem_shape (cnt : Code → Nat) (p : Code × Nat) (hp : p ∈ mclist cnt) :
    p.2 = cnt p.1 ∧ cnt p.1 ≠ 0 := by
  have hmem := (mclist_perm cnt).mem_iff.mp hp
  rcases List.mem_map.mp hmem with ⟨c, hc, rfl⟩
  have := (List.mem_filter.mp hc).2
  simpa using this

/-- Conversely every present key appears in most_common(). -/
theorem mclist_mem_of_present (cnt : Code → Nat) (c : Code) (hc : cnt c ≠ 0) :
    (c, cnt c) ∈ mclist cnt := by
  apply (mclist_perm cnt).mem_iff.mpr
  apply List.mem_map.mpr
  refine ⟨c, ?_, rfl⟩
  apply List.mem_filter.mpr
  exact ⟨List.mem_finRange c, by simpa using hc⟩

/-- largest_num bounds the count of every pair of most_common(). -/
theorem le_largest_num (cnt : Code → Nat) : ∀ p ∈ mclist cnt, p.2 ≤ largest_num cnt := by
  have hs := mclist_sorted cnt
  intro p hp
  unfold largest_num
  cases hml : mclist cnt with
  | nil => rw [hml] at hp; cases hp
  | cons h t =>
    rw [hml] at hp hs
    simp only [List.headD_cons]
    rcases List.mem_cons.mp hp with rfl | hpt
    · exact le_refl _
    · have h2 := (List.pairwise_cons.mp hs).1 p hpt
      simpa using h2

/-- On a non-empty Counter the largest count is positive and achieved. -/
theorem largest_num_pos (cnt : Code → Nat) (h : ∃ c, cnt c ≠ 0) :
    largest_num cnt ≠ 0 := by
  rcases h with ⟨c, hc⟩
  have hmem := mclist_mem_of_present cnt c hc
  have hle := le_largest_num cnt (c, cnt c) hmem
  simp only at hle
  omega

/-- largest_num is an upper bound on all counts (including absent keys). -/
theorem count_le_largest_num (cnt : Code → Nat) (h : ∃ c, cnt c ≠ 0) (c : Code) :
    cnt c ≤ largest_num cnt := by
  by_cases hc : cnt c = 0
  · rw [hc]; exact Nat.zero_le _
  · exact le_largest_num cnt (c, cnt c) (mclist_mem_of_present cnt c hc)

/-- Membership in largest_vals is exactly achieving the maximal count. -/
theorem largest_vals_mem (cnt : Code → Nat) (h : ∃ c, cnt c ≠ 0) (c : Code) :
    c ∈ largest_vals cnt ↔ cnt c = largest_num cnt := by
  constructor
  · intro hc
    rcases List.mem_map.mp hc with ⟨p, hpf, rfl⟩
    have hp2 := (List.mem_filter.mp hpf).2
    have hpm := (List.mem_filter.mp hpf).1
    have hshape := (mclist_mem_shape cnt p hpm).1
    simp only [decide_eq_true_eq] at hp2
    rw [← hshape, hp2]
  · intro hc
    have hcne : cnt c ≠ 0 := by
      have := largest_num_pos cnt h
      omega
    apply List.mem_map.mpr
    refine ⟨(c, cnt c), ?_, rfl⟩
    apply List.mem_filter.mpr
    refine ⟨mclist_mem_of_present cnt c hcne, by simpa using hc⟩

/-- The tied-code list contains no duplicates. -/
theorem largest_vals_nodup (cnt : Code → Nat) : (largest_vals cnt).Nodup := by
  have h1 : (presentCodes cnt).Nodup := (List.nodup_finRange 32).filter _
  have h2 : ((presentCodes cnt).map (fun c => (c, cnt c))).Nodup :=
    List.Nodup.map_on (fun x _ y _ hxy => congrArg Prod.fst hxy) h1
  have h3 : (mclist cnt).Nodup := (mclist_perm cnt).nodup_iff.mpr h2
  have h4 : ((mclist cnt).filter (fun p => decide (p.2 = largest_num cnt))).Nodup :=
    h3.filter _
  apply List.Nodup.map_on ?_ h4
  intro x hx y hy hxy
  have hxs := mclist_mem_shape cnt x ((List.mem_filter.mp hx).1)
  have hys := mclist_mem_shape cnt y ((List.mem_filter.mp hy).1)
  have : x = (x.1, cnt x.1) := by
    cases x
    simp only at hxs ⊢
    rw [hxs.1]
  have hy2 : y = (y.1, cnt y.1) := by
    cases y
    simp only at hys ⊢
    rw [hys.1]
  rw [this, hy2, hxy]

/-- largest_vals is non-empty whenever the Counter is. -/
theorem largest_vals_ne_nil (cnt : Code → Nat) (h : ∃ c, cnt c ≠ 0) :
    largest_vals cnt ≠ [] := by
  rcases h with ⟨c, hc⟩
  have hmax := count_le_largest_num cnt ⟨c, hc⟩
  intro hnil
  cases hml : mclist cnt with
  | nil =>
    have := mclist_mem_of_present cnt c hc
    rw [hml] at this
    cases this
  | cons p t =>
    have hp : p ∈ mclist cnt := by rw [hml]; exact List.mem_cons_self p t
    have hshape := mclist_mem_shape cnt p hp
    have hpl : p.2 = largest_num cnt := by
      have hle := le_largest_num cnt p hp
      have hge : largest_num cnt ≤ p.2 := by
        unfold largest_num
        rw [hml, List.headD_cons]
      omega
    have : p.1 ∈ largest_vals cnt := by
      apply (largest_vals_mem cnt ⟨c, hc⟩ p.1).mpr
      rw [← hshape.1, hpl]
    rw [hnil] at this
    cases this

/-- On a non-empty Counter, get_mc always lands in largest_vals. -/
theorem get_mc_mem (cnt : Code → Nat) (h : ∃ c, cnt c ≠ 0) (k : Nat) :
    get_mc cnt k ∈ largest_vals cnt := by
  unfold get_mc
  have hne := largest_vals_ne_nil cnt h
  have hlen : 0 < (largest_vals cnt).length := List.length_pos.mpr hne
  have hk : k % (largest_vals cnt).length < (largest_vals cnt).length :=
    Nat.mod_lt _ hlen
  rw [List.getD_eq_getElem _ _ hk]
  exact List.getElem_mem hk

/-- C7: on every non-empty memory, get_mc returns a code whose count equals
the maximum count in the memory, and the tie set largest_vals it draws from
uniformly (index k mod its length, each tied code listed exactly once)
consists of exactly the codes achieving the maximum count — in particular
the choice among tied codes is not the deterministic lexicographic minimum. -/
theorem get_mc_majority_uniform (cnt : Code → Nat) (h : ∃ c, cnt c ≠ 0) :
    (∀ k, cnt (get_mc cnt k) = largest_num cnt) ∧
    (∀ c, cnt c ≤ largest_num cnt) ∧
    largest_num cnt ≠ 0 ∧
    (∀ c, c ∈ largest_vals cnt ↔ cnt c = largest_num cnt) ∧
    (largest_vals cnt).Nodup ∧
    (∀ k, k < (largest_vals cnt).length → get_mc cnt k = (largest_vals cnt).getD k 0) := by
  refine ⟨?_, count_le_largest_num cnt h, largest_num_pos cnt h, largest_vals_mem cnt h,
    largest_vals_nodup cnt, ?_⟩
  · intro k
    exact (largest_vals_mem cnt h _).mp (get_mc_mem cnt h k)
  · intro k hk
    unfold get_mc
    rw [Nat.mod_eq_of_lt hk]

/-- Concrete tied Counter {00000: 3, 00001: 3} for the C7 witness. -/
def cntEx7 : Code → Nat := fun c => if c = 0 then 3 else if c = 1 then 3 else 0

/-- Witness for C7 at a Counter with two codes tied at the maximum. -/
theorem get_mc_majority_uniform_witness :
    (∃ c, cntEx7 c ≠ 0) ∧
    ((∀ k, cntEx7 (get_mc cntEx7 k) = largest_num cntEx7) ∧
    (∀ c, cntEx7 c ≤ largest_num cntEx7) ∧
    largest_num cntEx7 ≠ 0 ∧
    (∀ c, c ∈ largest_vals cntEx7 ↔ cntEx7 c = largest_num cntEx7) ∧
    (largest_vals cntEx7).Nodup ∧
    (∀ k, k < (largest_vals cntEx7).length →
      get_mc cntEx7 k = (largest_vals cntEx7).getD k 0)) :=
  ⟨⟨0, by decide⟩, get_mc_majority_uniform cntEx7 ⟨0, by decide⟩⟩

/-! ### Memory invariant lemmas (insertion and mutation) -/

/-- A Counter is non-empty iff its total is nonzero. -/
theorem sumCounts_ne_zero_iff (cnt : Code → Nat) :
    sumCounts cnt ≠ 0 ↔ ∃ c, cnt c ≠ 0 := by
  unfold sumCounts
  constructor
  · intro h
    by_contra hall
    push_neg at hall
    exact h (Finset.sum_eq_zero (fun c _ => hall c))
  · intro ⟨c, hc⟩ h
    exact hc (Finset.sum_eq_zero_iff.mp h c (Finset.mem_univ c))

/-- Positive count of a consistent memory means list membership. -/
theorem mem_of_count_ne_zero (m : NodeMemory) (hc : Consistent m) (c : Code)
    (h : m.memCount c ≠ 0) : c ∈ m.memList := by
  by_contra hmem
  exact h (by rw [hc c]; exact List.count_eq_zero.mpr hmem)

/-- Bumping a Counter that agrees with a list gives the Counter of the list
with the bumped code appended. -/
theorem bump_count_append (cnt : Code → Nat) (l : List Code) (c : Code)
    (hcnt : ∀ x, cnt x = List.count x l) :
    ∀ x, bump cnt c x = List.count x (l ++ [c]) := by
  intro x
  rw [List.count_append, List.count_cons, List.count_nil]
  unfold bump
  by_cases hx : x = c
  · subst hx
    rw [if_pos rfl, hcnt x]
    simp
  · rw [if_neg hx, hcnt x]
    have hbeq : (c == x) = false := by
      simp only [beq_eq_false_iff_ne, ne_eq]
      exact fun hh => hx hh.symm
    rw [hbeq]
    simp

/-- Dropping the head of a Counter that agrees with a cons list gives the
Counter of the tail. -/
theorem drop1_count_head (f : Code) (t : List Code) (cnt : Code → Nat)
    (hcnt : ∀ x, cnt x = List.count x (f :: t)) :
    ∀ x, drop1 cnt f x = List.count x t := by
  intro x
  unfold drop1
  have h := hcnt x
  rw [List.count_cons] at h
  by_cases hx : x = f
  · subst hx
    rw [if_pos rfl]
    simp only [BEq.refl, if_true] at h
    omega
  · rw [if_neg hx]
    have hbeq : (f == x) = false := by
      simp only [beq_eq_false_iff_ne, ne_eq]
      exact fun hh => hx hh.symm
    rw [hbeq] at h
    simpa using h

/-- Insertion with FIFO eviction preserves Counter/list consistency. -/
theorem insertMem_consistent (L : Nat) (m : NodeMemory) (c : Code) (hc : Consistent m) :
    Consistent (insertMem L m c) := by
  have hb : ∀ x, bump m.memCount c x = List.count x (m.memList ++ [c]) :=
    bump_count_append m.memCount m.memList c hc
  intro x
  unfold insertMem
  by_cases hL : L < (m.memList ++ [c]).length
  · rw [if_pos hL]
    cases hml : m.memList ++ [c] with
    | nil => exact absurd hml (by simp)
    | cons f t =>
      simp only [hml, List.tail_cons, List.headD_cons]
      exact drop1_count_head f t (bump m.memCount c) (fun y => hml ▸ hb y) x
  · rw [if_neg hL]
    exact hb x

/-- Insertion keeps the length at min(total ever inserted, L). -/
theorem insertMem_length_min (L tot : Nat) (m : NodeMemory) (c : Code)
    (hlen : m.memList.length = min tot L) :
    (insertMem L m c).memList.length = min (tot + 1) L := by
  unfold insertMem
  by_cases hL : L < (m.memList ++ [c]).length
  · rw [if_pos hL]
    rw [List.length_tail, List.length_append] at *
    simp only [List.length_singleton] at *
    omega
  · rw [if_neg hL]
    rw [List.length_append] at *
    simp only [List.length_singleton] at *
    omega

/-- In-place mutation of a held code preserves Counter/list consistency. -/
theorem mutateHeld_consistent (m : NodeMemory) (oldc newc : Code) (hc : Consistent m)
    (hmem : oldc ∈ m.memList) (hne : newc ≠ oldc) :
    Consistent (mutateHeld m oldc newc) := by
  rcases replace_decomp m.memList oldc newc hmem with ⟨l₁, l₂, hdec, hnot, hrep, hidx⟩
  intro x
  show drop1 (bump m.memCount newc) oldc x = List.count x (m.memList.replace oldc newc)
  rw [hrep, List.count_append, List.count_cons]
  have hx1 : m.memCount x = List.count x l₁ + (List.count x l₂ +
      if (oldc == x) = true then 1 else 0) := by
    rw [hc x, hdec, List.count_append, List.count_cons]
  unfold drop1 bump
  by_cases hxo : x = oldc
  · subst hxo
    rw [if_pos rfl, if_neg (fun h => hne h.symm)]
    simp only [BEq.refl, if_true] at hx1
    have hbeq : (newc == x) = false := by
      simp only [beq_eq_false_iff_ne, ne_eq]
      exact hne
    rw [hbeq]
    simp only [if_neg (Bool.false_ne_true)]
    omega
  · rw [if_neg hxo]
    have hobeq : (oldc == x) = false := by
      simp only [beq_eq_false_iff_ne, ne_eq]
      exact fun hh => hxo hh.symm
    rw [hobeq] at hx1
    simp only [if_neg (Bool.false_ne_true)] at hx1
    by_cases hxn : x = newc
    · subst hxn
      rw [if_pos rfl]
      simp only [BEq.refl, if_true]
      omega
    · rw [if_neg hxn]
      have hnbeq : (newc == x) = false := by
        simp only [beq_eq_false_iff_ne, ne_eq]
        exact fun hh => hxn hh.symm
      rw [hnbeq]
      simp only [if_neg (Bool.false_ne_true)]
      omega

/-- Mutation of a held code preserves the sequence length. -/
theorem mutateHeld_length (m : NodeMemory) (oldc newc : Code) :
    (mutateHeld m oldc newc).memList.length = m.memList.length :=
  List.length_replace

/-- On a non-empty Counter, get_mc returns a code with positive count. -/
theorem get_mc_count_pos (cnt : Code → Nat) (h : ∃ c, cnt c ≠ 0) (k : Nat) :
    cnt (get_mc cnt k) ≠ 0 := by
  have h1 := (largest_vals_mem cnt h _).mp (get_mc_mem cnt h k)
  have h2 := largest_num_pos cnt h
  omega

/-- On a non-empty Counter, the weighted selection returns a present code. -/
theorem weightedPick_count_pos (cnt : Code → Nat) (h : ∃ c, cnt c ≠ 0) (k : Nat) :
    cnt (weightedPick cnt k) ≠ 0 := by
  rcases h with ⟨c, hc⟩
  have hne : presentCodes cnt ≠ [] := by
    intro hnil
    have : c ∈ presentCodes cnt := by
      apply List.mem_filter.mpr
      exact ⟨List.mem_finRange c, by simpa using hc⟩
    rw [hnil] at this
    cases this
  have hlen : 0 < (presentCodes cnt).length := List.length_pos.mpr hne
  have hk : k % (presentCodes cnt).length < (presentCodes cnt).length := Nat.mod_lt _ hlen
  have hmem : weightedPick cnt k ∈ presentCodes cnt := by
    unfold weightedPick
    rw [List.getD_eq_getElem _ _ hk]
    exact List.getElem_mem hk
  have := (List.mem_filter.mp hmem).2
  simpa using this

/-! ### Claim C8: the sequential round loop has synchronous semantics -/

/-- Characterization of the neighbor-loop fold: receiver j gains exactly one
queued copy of the rumor when j is in the iterated list, is not special, and
its acceptance coin is positive; nothing else changes. -/
theorem accFold_char {n : Nat} (cfg : Config n) (d : RoundDec n) (i : Fin n) (r : Code) :
    ∀ (l : List (Fin n)), l.Nodup → ∀ (u : Fin n → List Code) (j : Fin n),
    (l.foldl (fun u2 j2 => if isSpecial cfg j2 then u2
        else if d.acc i j2 then Function.update u2 j2 (u2 j2 ++ [r]) else u2) u) j
      = u j ++ (if j ∈ l ∧ ¬isSpecial cfg j ∧ d.acc i j = true then [r] else []) := by
  intro l
  induction l with
  | nil =>
    intro _ u j
    simp
  | cons x xs ih =>
    intro hnd u j
    have hx : ¬ x ∈ xs := (List.nodup_cons.mp hnd).1
    have hxs : xs.Nodup := (List.nodup_cons.mp hnd).2
    rw [List.foldl_cons, ih hxs]
    by_cases hjx : j = x
    · subst hjx
      have hjxs : ¬ j ∈ xs := hx
      by_cases hsp : isSpecial cfg j
      · simp [hsp, hjxs]
      · by_cases hacc : d.acc i j = true
        · simp [hsp, hacc, hjxs, Function.update_same]
        · simp [hsp, hacc, hjxs]
    · have hval : (if isSpecial cfg x then u
          else if d.acc i x then Function.update u x (u x ++ [r]) else u) j = u j := by
        by_cases hsp : isSpecial cfg x
        · rw [if_pos hsp]
        · rw [if_neg hsp]
          by_cases hacc : d.acc i x = true
          · rw [if_pos hacc, Function.update_noteq hjx _ _]
          · rw [if_neg hacc]
      rw [hval]
      by_cases hjxs : j ∈ xs
      · simp [hjxs, List.mem_cons, hjx]
      · simp [hjxs, List.mem_cons, hjx]

/-- Characterization of pushUpdates: it only appends the broadcast rumor to
the queues of accepting ordinary neighbors. -/
theorem pushUpdates_char {n : Nat} (cfg : Config n) (d : RoundDec n) (st : MidState n)
    (i : Fin n) (r : Code) :
    pushUpdates cfg d st i r = { st with upd := fun j => st.upd j ++
      (if cfg.adj i j = true ∧ ¬isSpecial cfg j ∧ d.acc i j = true then [r] else []) } := by
  unfold pushUpdates
  congr 1
  funext j
  rw [accFold_char cfg d i r (neighborsList cfg i)
    ((List.nodup_finRange n).filter _) st.upd j]
  have hiff : j ∈ neighborsList cfg i ↔ cfg.adj i j = true := by
    unfold neighborsList
    rw [List.mem_filter]
    simp [List.mem_finRange]
  simp only [hiff]

/-- Characterization of one iteration of the per-node loop: node i reads
only its own memory slot, rewrites only its own memory and entropy slots
(to their localMem/localH values), and appends its contribution to the
queues. -/
theorem nodeIter_char {n : Nat} (cfg : Config n) (d : RoundDec n) (st : MidState n) (i : Fin n) :
    nodeIter cfg d st i =
      { mem := Function.update st.mem i (localMem cfg d i (st.mem i))
        H := Function.update st.H i (localH cfg d i (st.mem i) (st.H i))
        upd := fun j => st.upd j ++ contribOf cfg d (st.mem i) i j } := by
  by_cases hempty : sumCounts (st.mem i).memCount ≠ 0
  · by_cases hsp : isSpecial cfg i
    · have h1 : nodeIter cfg d st i =
          pushUpdates cfg d st i (get_mc (st.mem i).memCount (d.tie i)) := by
        simp only [nodeIter]
        rw [if_pos hempty, if_pos hsp]
      have hb : bcast cfg d i (st.mem i) = some (get_mc (st.mem i).memCount (d.tie i)) := by
        simp only [bcast]
        rw [if_pos hempty, if_pos hsp]
      have hc1 : ¬ (sumCounts (st.mem i).memCount ≠ 0 ∧ ¬ isSpecial cfg i ∧
          d.mutCoin i = true) := fun h => h.2.1 hsp
      have hc2 : ¬ (sumCounts (st.mem i).memCount ≠ 0 ∧ ¬ isSpecial cfg i) :=
        fun h => h.2 hsp
      have hlm : localMem cfg d i (st.mem i) = st.mem i := by
        simp only [localMem]
        rw [if_neg hc1]
      have hlh : localH cfg d i (st.mem i) (st.H i) = st.H i := by
        simp only [localH]
        rw [if_neg hc2]
      rw [h1, pushUpdates_char]
      obtain ⟨mem, H, upd⟩ := st
      simp only at hlm hlh hb ⊢
      simp only [MidState.mk.injEq]
      refine ⟨?_, ?_, ?_⟩
      · rw [hlm]
        exact (Function.update_eq_self i mem).symm
      · rw [hlh]
        exact (Function.update_eq_self i H).symm
      · funext j
        simp only [contribOf, hb]
    · by_cases hmut : d.mutCoin i = true
      · have h1 : nodeIter cfg d st i =
            pushUpdates cfg d
              { mem := Function.update st.mem i
                  (mutateHeld (st.mem i)
                    (if cfg.mcr then get_mc (st.mem i).memCount (d.tie i)
                     else weightedPick (st.mem i).memCount (d.wsel i))
                    (flipCode
                      (if cfg.mcr then get_mc (st.mem i).memCount (d.tie i)
                       else weightedPick (st.mem i).memCount (d.wsel i)) (d.flip i)))
                H := Function.update st.H i (entropy (st.mem i).memCount)
                upd := st.upd }
              i
              (flipCode
                (if cfg.mcr then get_mc (st.mem i).memCount (d.tie i)
                 else weightedPick (st.mem i).memCount (d.wsel i)) (d.flip i)) := by
          simp only [nodeIter]
          rw [if_pos hempty, if_neg hsp, if_pos hmut]
        have hb : bcast cfg d i (st.mem i) =
            some (flipCode
              (if cfg.mcr then get_mc (st.mem i).memCount (d.tie i)
               else weightedPick (st.mem i).memCount (d.wsel i)) (d.flip i)) := by
          simp only [bcast]
          rw [if_pos hempty, if_neg hsp, if_pos hmut]
        have hlm : localMem cfg d i (st.mem i) =
            mutateHeld (st.mem i)
              (if cfg.mcr then get_mc (st.mem i).memCount (d.tie i)
               else weightedPick (st.mem i).memCount (d.wsel i))
              (flipCode
                (if cfg.mcr then get_mc (st.mem i).memCount (d.tie i)
                 else weightedPick (st.mem i).memCount (d.wsel i)) (d.flip i)) := by
          simp only [localMem]
          rw [if_pos ⟨hempty, hsp, hmut⟩]
        have hlh : localH cfg d i (st.mem i) (st.H i) = entropy (st.mem i).memCount := by
          simp only [localH]
          rw [if_pos ⟨hempty, hsp⟩]
        rw [h1, pushUpdates_char]
        obtain ⟨mem, H, upd⟩ := st
        simp only at hlm hlh hb ⊢
        simp only [MidState.mk.injEq]
        refine ⟨?_, ?_, ?_⟩
        · rw [hlm]
        · rw [hlh]
        · funext j
          simp only [contribOf, hb]
      · have h1 : nodeIter cfg d st i =
            pushUpdates cfg d
              { mem := st.mem
                H := Function.update st.H i (entropy (st.mem i).memCount)
                upd := st.upd }
              i
              (if cfg.mcr then get_mc (st.mem i).memCount (d.tie i)
               else weightedPick (st.mem i).memCount (d.wsel i)) := by
          simp only [nodeIter]
          rw [if_pos hempty, if_neg hsp, if_neg hmut]
        have hb : bcast cfg d i (st.mem i) =
            some (if cfg.mcr then get_mc (st.mem i).memCount (d.tie i)
                  else weightedPick (st.mem i).memCount (d.wsel i)) := by
          simp only [bcast]
          rw [if_pos hempty, if_neg hsp, if_neg hmut]
        have hc1 : ¬ (sumCounts (st.mem i).memCount ≠ 0 ∧ ¬ isSpecial cfg i ∧
            d.mutCoin i = true) := fun h => hmut h.2.2
        have hlm : localMem cfg d i (st.mem i) = st.mem i := by
          simp only [localMem]
          rw [if_neg hc1]
        have hlh : localH cfg d i (st.mem i) (st.H i) = entropy (st.mem i).memCount := by
          simp only [localH]
          rw [if_pos ⟨hempty, hsp⟩]
        rw [h1, pushUpdates_char]
        obtain ⟨mem, H, upd⟩ := st
        simp only at hlm hlh hb ⊢
        simp only [MidState.mk.injEq]
        refine ⟨?_, ?_, ?_⟩
        · rw [hlm]
          exact (Function.update_eq_self i mem).symm
        · rw [hlh]
        · funext j
          simp only [contribOf, hb]
  · have h1 : nodeIter cfg d st i = st := by
      simp only [nodeIter]
      rw [if_neg hempty]
    have hb : bcast cfg d i (st.mem i) = none := by
      simp only [bcast]
      rw [if_neg hempty]
    have hc1 : ¬ (sumCounts (st.mem i).memCount ≠ 0 ∧ ¬ isSpecial cfg i ∧
        d.mutCoin i = true) := fun h => hempty h.1
    have hc2 : ¬ (sumCounts (st.mem i).memCount ≠ 0 ∧ ¬ isSpecial cfg i) :=
      fun h => hempty h.1
    have hlm : localMem cfg d i (st.mem i) = st.mem i := by
      simp only [localMem]
      rw [if_neg hc1]
    have hlh : localH cfg d i (st.mem i) (st.H i) = st.H i := by
      simp only [localH]
      rw [if_neg hc2]
    rw [h1]
    obtain ⟨mem, H, upd⟩ := st
    simp only at hlm hlh hb ⊢
    simp only [MidState.mk.injEq]
    refine ⟨?_, ?_, ?_⟩
    · rw [hlm]
      exact (Function.update_eq_self i mem).symm
    · rw [hlh]
      exact (Function.update_eq_self i H).symm
    · funext j
      simp only [contribOf, hb, List.append_nil]

/-- Characterization of the whole per-node loop over any duplicate-free node
list: every node's memory and entropy slot is rewritten to its local value
computed from the loop-entry state, and the queues collect the per-node
contributions in iteration order — nodes processed later still read their
own loop-entry memory because earlier iterations only touched their own
slots. -/
theorem seqFold_char {n : Nat} (cfg : Config n) (d : RoundDec n) :
    ∀ (l : List (Fin n)), l.Nodup → ∀ (st : MidState n),
    l.foldl (nodeIter cfg d) st =
      { mem := fun j => if j ∈ l then localMem cfg d j (st.mem j) else st.mem j
        H := fun j => if j ∈ l then localH cfg d j (st.mem j) (st.H j) else st.H j
        upd := fun j => st.upd j ++
          (l.map (fun i => contribOf cfg d (st.mem i) i j)).flatten } := by
  intro l
  induction l with
  | nil =>
    intro _ st
    obtain ⟨mem, H, upd⟩ := st
    simp
  | cons x xs ih =>
    intro hnd st
    have hx : ¬ x ∈ xs := (List.nodup_cons.mp hnd).1
    have hxs : xs.Nodup := (List.nodup_cons.mp hnd).2
    rw [List.foldl_cons, nodeIter_char, ih hxs]
    simp only [MidState.mk.injEq]
    refine ⟨?_, ?_, ?_⟩
    · funext j
      by_cases hjx : j = x
      · subst hjx
        rw [if_neg hx, if_pos (List.mem_cons_self j xs), Function.update_same]
      · have hupd : Function.update st.mem x (localMem cfg d x (st.mem x)) j = st.mem j :=
          Function.update_noteq hjx _ _
        by_cases hjxs : j ∈ xs
        · rw [if_pos hjxs, if_pos (List.mem_cons_of_mem x hjxs), hupd]
        · rw [if_neg hjxs, hupd, if_neg (by simp [List.mem_cons, hjx, hjxs])]
    · funext j
      by_cases hjx : j = x
      · subst hjx
        rw [if_neg hx, if_pos (List.mem_cons_self j xs), Function.update_same]
      · have hupd : Function.update st.mem x (localMem cfg d x (st.mem x)) j = st.mem j :=
          Function.update_noteq hjx _ _
        have hupdH : Function.update st.H x (localH cfg d x (st.mem x) (st.H x)) j = st.H j :=
          Function.update_noteq hjx _ _
        by_cases hjxs : j ∈ xs
        · rw [if_pos hjxs, if_pos (List.mem_cons_of_mem x hjxs), hupd, hupdH]
        · rw [if_neg hjxs, hupdH, if_neg (by simp [List.mem_cons, hjx, hjxs])]
    · funext j
      have hmap : xs.map (fun i => contribOf cfg d
            (Function.update st.mem x (localMem cfg d x (st.mem x)) i) i j)
          = xs.map (fun i => contribOf cfg d (st.mem i) i j) :=
        List.map_congr_left (fun i hi => by
          have hix : i ≠ x := fun h => hx (by rw [← h]; exact hi)
          rw [Function.update_noteq hix _ _])
      simp only [hmap, List.map_cons, List.flatten_cons]
      rw [List.append_assoc]

/-- The sequential round equals the synchronous round. -/
theorem seqRound_eq_syncRound {n : Nat} (cfg : Config n) (d : RoundDec n)
    (mem : Fin n → NodeMemory) (H : Fin n → ℝ) :
    seqRound cfg d mem H = syncRound cfg d mem H := by
  unfold seqRound syncRound applyUpdates
  rw [seqFold_char cfg d (List.finRange n) (List.nodup_finRange n)]
  simp only [MidState.mk.injEq, List.mem_finRange, if_true, List.nil_append]
  exact ⟨rfl, trivial, rfl⟩

/-- C8: within each round, every broadcast rumor selection and every
acceptance decision is made against the memories as they stand at the start
of the round (each modified only by the broadcaster's own in-step mutation
of its own memory), every accepted rumor is only queued, and the queued
insertions are applied to the receivers' memories only after every node's
broadcast and every acceptance decision of the round is complete: the
sequential in-place loop of the source equals the synchronous round. -/
theorem round_broadcasts_synchronous {n : Nat} (cfg : Config n) (d : RoundDec n)
    (mem : Fin n → NodeMemory) (H : Fin n → ℝ) :
    seqRound cfg d mem H = syncRound cfg d mem H :=
  seqRound_eq_syncRound cfg d mem H

/-! ### Claim C4: liars and truth-tellers are fixed points -/

/-- Characterization of a seeding fold: exactly the listed nodes get one
instance of the code appended. -/
theorem seedFold_char {n : Nat} (c : Code) :
    ∀ (l : List (Fin n)), l.Nodup → ∀ (m : Fin n → NodeMemory) (i : Fin n),
    (l.foldl (fun m2 x => seedAppend m2 x c) m) i =
      if i ∈ l then { memList := (m i).memList ++ [c], memCount := bump (m i).memCount c }
      else m i := by
  intro l
  induction l with
  | nil =>
    intro _ m i
    simp
  | cons x xs ih =>
    intro hnd m i
    have hx : ¬ x ∈ xs := (List.nodup_cons.mp hnd).1
    have hxs : xs.Nodup := (List.nodup_cons.mp hnd).2
    rw [List.foldl_cons, ih hxs]
    by_cases hix : i = x
    · subst hix
      rw [if_neg hx, if_pos (List.mem_cons_self i xs)]
      show seedAppend m i c i = _
      unfold seedAppend
      rw [Function.update_same]
    · have h2 : seedAppend m x c i = m i := by
        unfold seedAppend
        rw [Function.update_noteq hix _ _]
      by_cases hixs : i ∈ xs
      · rw [if_pos hixs, if_pos (List.mem_cons_of_mem x hixs), h2]
      · rw [if_neg hixs, h2, if_neg (by simp [List.mem_cons, hix, hixs])]

/-- Seeding appends touch only their own node. -/
theorem seedAppend_noteq {n : Nat} (m : Fin n → NodeMemory) (x : Fin n) (c : Code)
    (i : Fin n) (h : i ≠ x) : seedAppend m x c i = m i := by
  unfold seedAppend
  rw [Function.update_noteq h _ _]

/-- A liar's seeded memory is exactly one instance of 11111. -/
theorem seedMems_liar {n : Nat} (cfg : Config n) (i : Fin n) (hi : i ∈ cfg.liars)
    (hl : cfg.liars.Nodup) (ht : cfg.truths.Nodup) (hit : ¬ i ∈ cfg.truths)
    (hii : i ≠ cfg.initPerson) :
    seedMems cfg i =
      { memList := [liarCode], memCount := fun c => if c = liarCode then 1 else 0 } := by
  simp only [seedMems]
  rw [seedAppend_noteq _ _ _ _ hii]
  rw [seedFold_char truthCode cfg.truths ht _ i, if_neg hit]
  rw [seedFold_char liarCode cfg.liars hl _ i, if_pos hi]
  rfl

/-- A truth-teller's seeded memory is exactly one instance of 00000. -/
theorem seedMems_truth {n : Nat} (cfg : Config n) (i : Fin n) (hi : i ∈ cfg.truths)
    (hl : cfg.liars.Nodup) (ht : cfg.truths.Nodup) (hil : ¬ i ∈ cfg.liars)
    (hii : i ≠ cfg.initPerson) :
    seedMems cfg i =
      { memList := [truthCode], memCount := fun c => if c = truthCode then 1 else 0 } := by
  simp only [seedMems]
  rw [seedAppend_noteq _ _ _ _ hii]
  rw [seedFold_char truthCode cfg.truths ht _ i, if_pos hi]
  rw [seedFold_char liarCode cfg.liars hl _ i, if_neg hil]
  rfl

/-- Special receivers never have anything queued for them: every acceptance
decision for a liar or truth-teller receiver is a forced rejection. -/
theorem syncUpd_special {n : Nat} (cfg : Config n) (d : RoundDec n)
    (mem : Fin n → NodeMemory) (j : Fin n) (hsp : isSpecial cfg j) :
    syncUpd cfg d mem j = [] := by
  unfold syncUpd
  apply List.flatten_eq_nil_iff.mpr
  intro l hl
  rcases List.mem_map.mp hl with ⟨i, _, rfl⟩
  unfold contribOf
  cases hb : bcast cfg d i (mem i) with
  | none => rfl
  | some r =>
    show (if cfg.adj i j = true ∧ ¬ isSpecial cfg j ∧ d.acc i j = true then [r] else []) = []
    rw [if_neg (fun h : cfg.adj i j = true ∧ ¬ isSpecial cfg j ∧ d.acc i j = true =>
      h.2.1 hsp)]

/-- Special nodes never mutate their own memory in step 1. -/
theorem localMem_special {n : Nat} (cfg : Config n) (d : RoundDec n) (i : Fin n)
    (m : NodeMemory) (hsp : isSpecial cfg i) : localMem cfg d i m = m := by
  unfold localMem
  rw [if_neg (fun h => h.2.1 hsp)]

/-- Special nodes never write their entropy slot. -/
theorem localH_special {n : Nat} (cfg : Config n) (d : RoundDec n) (i : Fin n)
    (m : NodeMemory) (h : ℝ) (hsp : isSpecial cfg i) : localH cfg d i m h = h := by
  unfold localH
  rw [if_neg (fun h2 => h2.2 hsp)]

/-- Across every round, a special node keeps its seeded memory and its
entropy slot stays at the initial 0. -/
theorem stateAt_special_fixed {n : Nat} (cfg : Config n) (decs : Nat → RoundDec n)
    (i : Fin n) (hsp : isSpecial cfg i) :
    ∀ t, (stateAt cfg decs t).1 i = seedMems cfg i ∧ (stateAt cfg decs t).2 i = 0 := by
  intro t
  induction t with
  | zero => exact ⟨rfl, rfl⟩
  | succ t ih =>
    have hmem : (stateAt cfg decs (t + 1)).1 i =
        (syncRound cfg (decs t) (stateAt cfg decs t).1 (stateAt cfg decs t).2).mem i := by
      show (seqRound cfg (decs t) (stateAt cfg decs t).1 (stateAt cfg decs t).2).mem i = _
      rw [seqRound_eq_syncRound]
    have hH : (stateAt cfg decs (t + 1)).2 i =
        (syncRound cfg (decs t) (stateAt cfg decs t).1 (stateAt cfg decs t).2).H i := by
      show (seqRound cfg (decs t) (stateAt cfg decs t).1 (stateAt cfg decs t).2).H i = _
      rw [seqRound_eq_syncRound]
    constructor
    · rw [hmem]
      simp only [syncRound]
      rw [syncUpd_special cfg (decs t) _ i hsp, List.foldl_nil,
        localMem_special cfg (decs t) i _ hsp, ih.1]
    · rw [hH]
      simp only [syncRound]
      rw [localH_special cfg (decs t) i _ _ hsp, ih.2]

/-- When only one code has a positive count, get_mc returns it for every
tie-breaking draw. -/
theorem get_mc_unique (cnt : Code → Nat) (a : Code) (ha : cnt a ≠ 0)
    (hu : ∀ c, c ≠ a → cnt c = 0) (k : Nat) : get_mc cnt k = a := by
  have h := get_mc_count_pos cnt ⟨a, ha⟩ k
  by_contra hne
  exact h (hu _ hne)

/-- C4: a node assigned the Liar role starts holding only code 11111, never
mutates it and never accepts any incoming rumor (its queue is empty every
round), so at every round its majority rumor equals 11111 for every
tie-breaking draw and its slot in the per-node entropy array stays 0 for
the whole run; the analogous property holds for Truth-tellers with 00000. -/
theorem liar_truth_fixed_points {n : Nat} (cfg : Config n) (decs : Nat → RoundDec n)
    (hl : cfg.liars.Nodup) (ht : cfg.truths.Nodup)
    (hdisj : ∀ x : Fin n, ¬ (x ∈ cfg.liars ∧ x ∈ cfg.truths))
    (hinitl : ¬ cfg.initPerson ∈ cfg.liars) (hinitt : ¬ cfg.initPerson ∈ cfg.truths) :
    (∀ i ∈ cfg.liars, ∀ t,
      (stateAt cfg decs t).1 i =
        { memList := [liarCode], memCount := fun c => if c = liarCode then 1 else 0 } ∧
      (∀ k, get_mc ((stateAt cfg decs t).1 i).memCount k = liarCode) ∧
      (stateAt cfg decs t).2 i = 0 ∧
      syncUpd cfg (decs t) (stateAt cfg decs t).1 i = []) ∧
    (∀ i ∈ cfg.truths, ∀ t,
      (stateAt cfg decs t).1 i =
        { memList := [truthCode], memCount := fun c => if c = truthCode then 1 else 0 } ∧
      (∀ k, get_mc ((stateAt cfg decs t).1 i).memCount k = truthCode) ∧
      (stateAt cfg decs t).2 i = 0 ∧
      syncUpd cfg (decs t) (stateAt cfg decs t).1 i = []) := by
  constructor
  · intro i hi t
    have hsp : isSpecial cfg i := Or.inl hi
    have hii : i ≠ cfg.initPerson := fun h => hinitl (h ▸ hi)
    have hit : ¬ i ∈ cfg.truths := fun h => hdisj i ⟨hi, h⟩
    have hinv := stateAt_special_fixed cfg decs i hsp t
    have hseed := seedMems_liar cfg i hi hl ht hit hii
    have hmem : (stateAt cfg decs t).1 i =
        { memList := [liarCode], memCount := fun c => if c = liarCode then 1 else 0 } := by
      rw [hinv.1, hseed]
    refine ⟨hmem, ?_, hinv.2, syncUpd_special cfg (decs t) _ i hsp⟩
    intro k
    rw [hmem]
    exact get_mc_unique _ liarCode (by simp) (fun c hc => if_neg hc) k
  · intro i hi t
    have hsp : isSpecial cfg i := Or.inr hi
    have hii : i ≠ cfg.initPerson := fun h => hinitt (h ▸ hi)
    have hil : ¬ i ∈ cfg.liars := fun h => hdisj i ⟨h, hi⟩
    have hinv := stateAt_special_fixed cfg decs i hsp t
    have hseed := seedMems_truth cfg i hi hl ht hil hii
    have hmem : (stateAt cfg decs t).1 i =
        { memList := [truthCode], memCount := fun c => if c = truthCode then 1 else 0 } := by
      rw [hinv.1, hseed]
    refine ⟨hmem, ?_, hinv.2, syncUpd_special cfg (decs t) _ i hsp⟩
    intro k
    rw [hmem]
    exact get_mc_unique _ truthCode (by simp) (fun c hc => if_neg hc) k

/-- Concrete 3-node configuration (seed node 0, liar 1, truth-teller 2) for
engine witnesses. -/
def cfgEx : Config 3 :=
  { L := 10, initPerson := 0, liars := [1], truths := [2], mcr := true,
    adj := fun i j => decide (i ≠ j) }

/-- Concrete all-accepting, never-mutating decision oracle. -/
def decsEx : Nat → RoundDec 3 := fun _ =>
  { tie := fun _ => 0, wsel := fun _ => 0, mutCoin := fun _ => false,
    flip := fun _ => 0, acc := fun _ _ => true }

/-- Witness for C4 at the concrete 3-node run. -/
theorem liar_truth_fixed_points_witness :
    (cfgEx.liars.Nodup ∧ cfgEx.truths.Nodup ∧
      (∀ x : Fin 3, ¬ (x ∈ cfgEx.liars ∧ x ∈ cfgEx.truths)) ∧
      ¬ cfgEx.initPerson ∈ cfgEx.liars ∧ ¬ cfgEx.initPerson ∈ cfgEx.truths) ∧
    ((∀ i ∈ cfgEx.liars, ∀ t,
      (stateAt cfgEx decsEx t).1 i =
        { memList := [liarCode], memCount := fun c => if c = liarCode then 1 else 0 } ∧
      (∀ k, get_mc ((stateAt cfgEx decsEx t).1 i).memCount k = liarCode) ∧
      (stateAt cfgEx decsEx t).2 i = 0 ∧
      syncUpd cfgEx (decsEx t) (stateAt cfgEx decsEx t).1 i = []) ∧
    (∀ i ∈ cfgEx.truths, ∀ t,
      (stateAt cfgEx decsEx t).1 i =
        { memList := [truthCode], memCount := fun c => if c = truthCode then 1 else 0 } ∧
      (∀ k, get_mc ((stateAt cfgEx decsEx t).1 i).memCount k = truthCode) ∧
      (stateAt cfgEx decsEx t).2 i = 0 ∧
      syncUpd cfgEx (decsEx t) (stateAt cfgEx decsEx t).1 i = [])) :=
  ⟨⟨by decide, by decide, by decide, by decide, by decide⟩,
    liar_truth_fixed_points cfgEx decsEx (by decide) (by decide) (by decide)
      (by decide) (by decide)⟩

/-! ### Claim C5: count/length/capacity invariant of every memory -/

/-- Seeding appends act on their own node by appending one instance. -/
theorem seedAppend_self {n : Nat} (m : Fin n → NodeMemory) (x : Fin n) (c : Code) :
    seedAppend m x c x =
      { memList := (m x).memList ++ [c], memCount := bump (m x).memCount c } := by
  unfold seedAppend
  rw [Function.update_same]

/-- The seed node's seeded memory is exactly one instance of 00000. -/
theorem seedMems_init {n : Nat} (cfg : Config n) (hl : cfg.liars.Nodup)
    (ht : cfg.truths.Nodup) (hinitl : ¬ cfg.initPerson ∈ cfg.liars)
    (hinitt : ¬ cfg.initPerson ∈ cfg.truths) :
    seedMems cfg cfg.initPerson =
      { memList := [truthCode], memCount := fun c => if c = truthCode then 1 else 0 } := by
  simp only [seedMems]
  rw [seedAppend_self]
  rw [seedFold_char truthCode cfg.truths ht _ _, if_neg hinitt]
  rw [seedFold_char liarCode cfg.liars hl _ _, if_neg hinitl]
  rfl

/-- Ordinary non-seed nodes start with an empty memory. -/
theorem seedMems_ordinary {n : Nat} (cfg : Config n) (i : Fin n) (hl : cfg.liars.Nodup)
    (ht : cfg.truths.Nodup) (hil : ¬ i ∈ cfg.liars) (hit : ¬ i ∈ cfg.truths)
    (hii : i ≠ cfg.initPerson) :
    seedMems cfg i = { memList := [], memCount := fun _ => 0 } := by
  simp only [seedMems]
  rw [seedAppend_noteq _ _ _ _ hii]
  rw [seedFold_char truthCode cfg.truths ht _ i, if_neg hit]
  rw [seedFold_char liarCode cfg.liars hl _ i, if_neg hil]

/-- A memory holding one instance of one code is consistent. -/
theorem consistent_singleton (a : Code) :
    Consistent { memList := [a], memCount := fun c => if c = a then 1 else 0 } := by
  intro c
  show (if c = a then 1 else 0) = List.count c [a]
  by_cases hc : c = a
  · subst hc
    simp
  · rw [if_neg hc]
    symm
    apply List.count_eq_zero.mpr
    simp [hc]

/-- The empty memory is consistent. -/
theorem consistent_empty : Consistent { memList := [], memCount := fun _ => 0 } := by
  intro c
  simp

/-- Flipping a bit always changes the code. -/
theorem flipCode_ne (c : Code) (b : Fin 5) : flipCode c b ≠ c := by
  revert c b
  decide

/-- Step 1 of a round preserves consistency and the memory length of every
node (mutation relabels in place, everything else leaves the memory alone). -/
theorem localMem_consistent_length {n : Nat} (cfg : Config n) (d : RoundDec n) (i : Fin n)
    (m : NodeMemory) (hc : Consistent m) :
    Consistent (localMem cfg d i m) ∧ (localMem cfg d i m).memList.length = m.memList.length := by
  unfold localMem
  by_cases hcond : sumCounts m.memCount ≠ 0 ∧ ¬ isSpecial cfg i ∧ d.mutCoin i = true
  · rw [if_pos hcond]
    have hne := (sumCounts_ne_zero_iff m.memCount).mp hcond.1
    have hr0 : m.memCount (if cfg.mcr then get_mc m.memCount (d.tie i)
        else weightedPick m.memCount (d.wsel i)) ≠ 0 := by
      by_cases hmcr : cfg.mcr
      · simp only [hmcr, if_true]
        exact get_mc_count_pos m.memCount hne (d.tie i)
      · simp only [hmcr, if_false]
        exact weightedPick_count_pos m.memCount hne (d.wsel i)
    have hmem := mem_of_count_ne_zero m hc _ hr0
    have hflip := flipCode_ne (if cfg.mcr then get_mc m.memCount (d.tie i)
        else weightedPick m.memCount (d.wsel i)) (d.flip i)
    exact ⟨mutateHeld_consistent m _ _ hc hmem hflip, mutateHeld_length m _ _⟩
  · rw [if_neg hcond]
    exact ⟨hc, rfl⟩

/-- Applying a queue of insertions preserves consistency and advances the
length along min(total inserted, L). -/
theorem insertFold_invariant (L : Nat) :
    ∀ (ups : List Code) (m : NodeMemory) (tot : Nat), Consistent m →
    m.memList.length = min tot L →
    Consistent (ups.foldl (insertMem L) m) ∧
    (ups.foldl (insertMem L) m).memList.length = min (tot + ups.length) L := by
  intro ups
  induction ups with
  | nil =>
    intro m tot hc hlen
    exact ⟨hc, by simpa using hlen⟩
  | cons u us ih =>
    intro m tot hc hlen
    rw [List.foldl_cons]
    have h1 := insertMem_consistent L m u hc
    have h2 := insertMem_length_min L tot m u hlen
    have h3 := ih (insertMem L m u) (tot + 1) h1 h2
    refine ⟨h3.1, ?_⟩
    rw [h3.2]
    have harith : tot + 1 + us.length = tot + (us.length + 1) := by omega
    rw [harith]
    rfl

/-- C5: for every node's memory, at every round boundary of the run, the sum
of the frequency counts equals the length of the ordered sequence, which
equals min(total insertions so far, L) and never exceeds the capacity L;
moreover this invariant is preserved by insertion with FIFO eviction and by
in-place mutation of a held rumor (which keeps both total count and length
unchanged). -/
theorem memory_count_length_invariant {n : Nat} (cfg : Config n) (decs : Nat → RoundDec n)
    (hL : 1 ≤ cfg.L) (hl : cfg.liars.Nodup) (ht : cfg.truths.Nodup)
    (hdisj : ∀ x : Fin n, ¬ (x ∈ cfg.liars ∧ x ∈ cfg.truths))
    (hinitl : ¬ cfg.initPerson ∈ cfg.liars) (hinitt : ¬ cfg.initPerson ∈ cfg.truths) :
    (∀ t (i : Fin n),
      sumCounts ((stateAt cfg decs t).1 i).memCount =
        ((stateAt cfg decs t).1 i).memList.length ∧
      ((stateAt cfg decs t).1 i).memList.length = min (totIns cfg decs t i) cfg.L ∧
      ((stateAt cfg decs t).1 i).memList.length ≤ cfg.L ∧
      Consistent ((stateAt cfg decs t).1 i)) ∧
    (∀ (m : NodeMemory) (c : Code) (tot : Nat), Consistent m →
      m.memList.length = min tot cfg.L →
      Consistent (insertMem cfg.L m c) ∧
      (insertMem cfg.L m c).memList.length = min (tot + 1) cfg.L) ∧
    (∀ (m : NodeMemory) (oldc newc : Code), Consistent m → oldc ∈ m.memList →
      newc ≠ oldc →
      Consistent (mutateHeld m oldc newc) ∧
      sumCounts (mutateHeld m oldc newc).memCount = sumCounts m.memCount ∧
      (mutateHeld m oldc newc).memList.length = m.memList.length) := by
  have core : ∀ t (i : Fin n), Consistent ((stateAt cfg decs t).1 i) ∧
      ((stateAt cfg decs t).1 i).memList.length = min (totIns cfg decs t i) cfg.L := by
    intro t
    induction t with
    | zero =>
      intro i
      have htot : totIns cfg decs 0 i = (seedMems cfg i).memList.length := rfl
      by_cases hil : i ∈ cfg.liars
      · have hii : i ≠ cfg.initPerson := fun h => hinitl (h ▸ hil)
        have hit : ¬ i ∈ cfg.truths := fun h => hdisj i ⟨hil, h⟩
        have hseed := seedMems_liar cfg i hil hl ht hit hii
        refine ⟨?_, ?_⟩
        · show Consistent (seedMems cfg i)
          rw [hseed]
          exact consistent_singleton liarCode
        · show (seedMems cfg i).memList.length = min (totIns cfg decs 0 i) cfg.L
          rw [htot, hseed]
          simp only [List.length_singleton]
          omega
      · by_cases hit : i ∈ cfg.truths
        · have hii : i ≠ cfg.initPerson := fun h => hinitt (h ▸ hit)
          have hseed := seedMems_truth cfg i hit hl ht hil hii
          refine ⟨?_, ?_⟩
          · show Consistent (seedMems cfg i)
            rw [hseed]
            exact consistent_singleton truthCode
          · show (seedMems cfg i).memList.length = min (totIns cfg decs 0 i) cfg.L
            rw [htot, hseed]
            simp only [List.length_singleton]
            omega
        · by_cases hii : i = cfg.initPerson
          · have hseed : seedMems cfg i =
                { memList := [truthCode],
                  memCount := fun c => if c = truthCode then 1 else 0 } := by
              rw [hii]
              exact seedMems_init cfg hl ht hinitl hinitt
            refine ⟨?_, ?_⟩
            · show Consistent (seedMems cfg i)
              rw [hseed]
              exact consistent_singleton truthCode
            · show (seedMems cfg i).memList.length = min (totIns cfg decs 0 i) cfg.L
              rw [htot, hseed]
              simp only [List.length_singleton]
              omega
          · have hseed := seedMems_ordinary cfg i hl ht hil hit hii
            refine ⟨?_, ?_⟩
            · show Consistent (seedMems cfg i)
              rw [hseed]
              exact consistent_empty
            · show (seedMems cfg i).memList.length = min (totIns cfg decs 0 i) cfg.L
              rw [htot, hseed]
              simp only [List.length_nil]
              omega
    | succ t ih =>
      intro i
      have hmem : (stateAt cfg decs (t + 1)).1 i =
          (syncRound cfg (decs t) (stateAt cfg decs t).1 (stateAt cfg decs t).2).mem i := by
        show (seqRound cfg (decs t) (stateAt cfg decs t).1 (stateAt cfg decs t).2).mem i = _
        rw [seqRound_eq_syncRound]
      have hA := localMem_consistent_length cfg (decs t) i _ (ih i).1
      have hlen2 : (localMem cfg (decs t) i ((stateAt cfg decs t).1 i)).memList.length =
          min (totIns cfg decs t i) cfg.L := by
        rw [hA.2]
        exact (ih i).2
      have hB := insertFold_invariant cfg.L (syncUpd cfg (decs t) (stateAt cfg decs t).1 i)
        _ (totIns cfg decs t i) hA.1 hlen2
      constructor
      · rw [hmem]
        simp only [syncRound]
        exact hB.1
      · rw [hmem]
        simp only [syncRound]
        rw [hB.2]
        rfl
  refine ⟨?_, ?_, ?_⟩
  · intro t i
    refine ⟨sumCounts_eq_length _ (core t i).1, (core t i).2, ?_, (core t i).1⟩
    rw [(core t i).2]
    exact Nat.min_le_right _ _
  · intro m c tot hc hlen
    exact ⟨insertMem_consistent cfg.L m c hc, insertMem_length_min cfg.L tot m c hlen⟩
  · intro m oldc newc hc hm hne
    have hc2 := mutateHeld_consistent m oldc newc hc hm hne
    refine ⟨hc2, ?_, mutateHeld_length m oldc newc⟩
    rw [sumCounts_eq_length _ hc2, mutateHeld_length m oldc newc, ← sumCounts_eq_length m hc]

/-- Witness for C5 at the concrete 3-node run. -/
theorem memory_count_length_invariant_witness :
    (1 ≤ cfgEx.L ∧ cfgEx.liars.Nodup ∧ cfgEx.truths.Nodup ∧
      (∀ x : Fin 3, ¬ (x ∈ cfgEx.liars ∧ x ∈ cfgEx.truths)) ∧
      ¬ cfgEx.initPerson ∈ cfgEx.liars ∧ ¬ cfgEx.initPerson ∈ cfgEx.truths) ∧
    ((∀ t (i : Fin 3),
      sumCounts ((stateAt cfgEx decsEx t).1 i).memCount =
        ((stateAt cfgEx decsEx t).1 i).memList.length ∧
      ((stateAt cfgEx decsEx t).1 i).memList.length = min (totIns cfgEx decsEx t i) cfgEx.L ∧
      ((stateAt cfgEx decsEx t).1 i).memList.length ≤ cfgEx.L ∧
      Consistent ((stateAt cfgEx decsEx t).1 i)) ∧
    (∀ (m : NodeMemory) (c : Code) (tot : Nat), Consistent m →
      m.memList.length = min tot cfgEx.L →
      Consistent (insertMem cfgEx.L m c) ∧
      (insertMem cfgEx.L m c).memList.length = min (tot + 1) cfgEx.L) ∧
    (∀ (m : NodeMemory) (oldc newc : Code), Consistent m → oldc ∈ m.memList →
      newc ≠ oldc →
      Consistent (mutateHeld m oldc newc) ∧
      sumCounts (mutateHeld m oldc newc).memCount = sumCounts m.memCount ∧
      (mutateHeld m oldc newc).memList.length = m.memList.length)) :=
  ⟨⟨by decide, by decide, by decide, by decide, by decide, by decide⟩,
    memory_count_length_invariant cfgEx decsEx (by decide) (by decide) (by decide)
      (by decide) (by decide) (by decide)⟩

/-! ### Claim C6: generated graphs never contain a degree-0 node -/

instance instDecChoicesOK (m : Nat) : (n : Nat) → (cs : List (List Nat)) →
    Decidable (choicesOK m n cs)
  | _, [] => isTrue trivial
  | n, c :: cs2 =>
    haveI := instDecChoicesOK m (n + 1) cs2
    inferInstanceAs (Decidable (_ ∧ _))

/-- The seed loop only ever returns an accepted draw: a draw with an
isolated node is discarded and the next draw is inspected instead. -/
theorem firstAccepted_accepts : ∀ (fuel : Nat) (draws : Nat → Mat) (s : Mat),
    firstAccepted draws fuel = some s → seedAccept s = true := by
  intro fuel
  induction fuel with
  | zero =>
    intro draws s h
    cases h
  | succ fuel ih =>
    intro draws s h
    unfold firstAccepted at h
    by_cases hacc : seedAccept (draws 0) = true
    · rw [if_pos hacc] at h
      cases h
      exact hacc
    · rw [if_neg hacc] at h
      exact ih _ s h

/-- seedAccept means exactly: no isolated node. -/
theorem seedAccept_noIsolated (M : Mat) (h : seedAccept M = true) : noIsolated M := by
  intro i hi
  have h2 := List.all_eq_true.mp h i (List.mem_range.mpr hi)
  simpa using h2

/-- A growth step adds one node. -/
theorem growStep_length (M : Mat) (chosen : List Nat) :
    (growStep M chosen).length = M.length + 1 := by
  unfold growStep
  rw [List.length_append, List.length_mapIdx]
  rfl

/-- A growth step never decreases the degree of an existing node. -/
theorem rowsum_growStep_old (M : Mat) (chosen : List Nat) (i : Nat) (hi : i < M.length) :
    rowsum M i ≤ rowsum (growStep M chosen) i := by
  unfold growStep rowsum
  have hlen : i < (M.mapIdx fun i2 row => row ++ [if i2 ∈ chosen then 1 else 0]).length := by
    rw [List.length_mapIdx]
    exact hi
  rw [List.getD_append _ _ _ _ hlen, List.getD_eq_getElem _ _ hlen, List.getElem_mapIdx]
  rw [List.sum_append]
  have : M.getD i [] = M[i] := List.getD_eq_getElem M [] hi
  rw [this]
  exact Nat.le_add_right _ _

/-- The node added by a growth step has degree at least 1 as soon as the
chosen attachment list is non-empty and names existing nodes. -/
theorem rowsum_growStep_new (M : Mat) (chosen : List Nat) (hne : chosen ≠ [])
    (hlt : ∀ x ∈ chosen, x < M.length) :
    1 ≤ rowsum (growStep M chosen) M.length := by
  unfold growStep rowsum
  have hlen : (M.mapIdx fun i2 row => row ++ [if i2 ∈ chosen then 1 else 0]).length
      = M.length := List.length_mapIdx
  rw [List.getD_append_right (M.mapIdx fun i2 row => row ++ [if i2 ∈ chosen then 1 else 0])
    _ _ _ (le_of_eq hlen), hlen, Nat.sub_self]
  show 1 ≤ (((List.range M.length).map fun i => if i ∈ chosen then 1 else 0) ++ [0]).sum
  rw [List.sum_append]
  obtain ⟨x, hx⟩ := List.exists_mem_of_ne_nil chosen hne
  · have hmem : (1 : Nat) ∈ (List.range M.length).map fun i => if i ∈ chosen then 1 else 0 := by
      apply List.mem_map.mpr
      refine ⟨x, List.mem_range.mpr (hlt x hx), ?_⟩
      rw [if_pos hx]
    have := List.single_le_sum (l := (List.range M.length).map
      fun i => if i ∈ chosen then 1 else 0) (fun y _ => Nat.zero_le y) 1 hmem
    omega

/-- The growth phase preserves the absence of isolated nodes for any
well-formed sequence of attachment choices. -/
theorem grow_noIsolated (m : Nat) :
    ∀ (cs : List (List Nat)) (M : Mat), noIsolated M → choicesOK m M.length cs →
    noIsolated (grow M cs) := by
  intro cs
  induction cs with
  | nil =>
    intro M hM _
    exact hM
  | cons c cs2 ih =>
    intro M hM hc
    have hstep : noIsolated (growStep M c) := by
      intro i hi
      rw [growStep_length] at hi
      rcases Nat.lt_or_ge i M.length with hlt | hge
      · exact le_trans (hM i hlt) (rowsum_growStep_old M c i hlt)
      · have : i = M.length := by omega
        subst this
        exact rowsum_growStep_new M c hc.1.2.1 hc.1.2.2.2
    have hc2 : choicesOK m (growStep M c).length cs2 := by
      rw [growStep_length]
      exact hc.2
    exact ih (growStep M c) hstep hc2

/-- The growth phase adds exactly one node per step. -/
theorem grow_length : ∀ (cs : List (List Nat)) (M : Mat),
    (grow M cs).length = M.length + cs.length := by
  intro cs
  induction cs with
  | nil =>
    intro M
    rfl
  | cons c cs2 ih =>
    intro M
    show (grow (growStep M c) cs2).length = _
    rw [ih, growStep_length, List.length_cons]
    omega

/-- C6: the graph returned by generate_new_graph never contains a degree-0
node, for any beta, any fuel and any growth step count: the seed rejection
loop only returns draws in which every node has degree at least 1, and each
grown node is attached to a non-empty duplicate-free set of existing nodes,
which can only increase existing degrees. -/
theorem generate_new_graph_no_isolated (beta : ℝ) (draws : Nat → Mat) (fuel m : Nat)
    (choices : List (List Nat)) (s : Mat)
    (hseed : firstAccepted draws fuel = some s)
    (hch : choicesOK m s.length choices) :
    generate_new_graph beta draws fuel choices =
      some (etaLoop (grow s choices) beta, grow s choices) ∧
    seedAccept s = true ∧
    noIsolated (grow s choices) ∧
    (grow s choices).length = s.length + choices.length := by
  have hacc := firstAccepted_accepts fuel draws s hseed
  refine ⟨?_, hacc, ?_, grow_length choices s⟩
  · unfold generate_new_graph
    rw [hseed]
    rfl
  · exact grow_noIsolated m choices s (seedAccept_noIsolated s hacc) hch

/-- Rejected-then-accepted seed draw stream for the C6 witness: the first
draw has an isolated node and is discarded. -/
def drawsEx : Nat → Mat := fun k =>
  if k = 0 then [[0, 0], [0, 0]] else [[0, 1], [1, 0]]

/-- Witness for C6: fuel 2, one rejected isolated-node draw, then two growth
steps each attaching the new node to one existing node. -/
theorem generate_new_graph_no_isolated_witness :
    (firstAccepted drawsEx 2 = some [[0, 1], [1, 0]] ∧
      choicesOK 1 ([[0, 1], [1, 0]] : Mat).length [[0], [2]]) ∧
    (generate_new_graph 1 drawsEx 2 [[0], [2]] =
      some (etaLoop (grow [[0, 1], [1, 0]] [[0], [2]]) 1, grow [[0, 1], [1, 0]] [[0], [2]]) ∧
    seedAccept [[0, 1], [1, 0]] = true ∧
    noIsolated (grow [[0, 1], [1, 0]] [[0], [2]]) ∧
    (grow [[0, 1], [1, 0]] [[0], [2]]).length = ([[0, 1], [1, 0]] : Mat).length + 2) :=
  ⟨⟨by decide, by decide⟩,
    generate_new_graph_no_isolated 1 drawsEx 2 1 [[0], [2]] [[0, 1], [1, 0]]
      (by decide) (by decide)⟩

/-! ### Closed form of the trust-matrix loop (claims C1, C2, C3) -/

/-- Membership in the inner loop's index range `range(i, n)`. -/
theorem mem_range_drop (n t x : Nat) : x ∈ (List.range n).drop t ↔ t ≤ x ∧ x < n := by
  constructor
  · intro h
    rcases List.mem_iff_getElem.mp h with ⟨j, hj, hx⟩
    rw [List.getElem_drop, List.getElem_range] at hx
    have hlen : t + j < n := by
      have := hj
      rw [List.length_drop, List.length_range] at this
      omega
    omega
  · intro ⟨h1, h2⟩
    apply List.mem_iff_getElem.mpr
    have hlen : x - t < (List.drop t (List.range n)).length := by
      rw [List.length_drop, List.length_range]
      omega
    refine ⟨x - t, hlen, ?_⟩
    rw [List.getElem_drop, List.getElem_range]
    omega

/-- Characterization of the inner trust loop for a fixed row index i:
cells (i, j) and (j, i) are written for every j in the iterated list, all
other cells keep their value. -/
theorem etaInner_char (edges : Mat) (beta : ℝ) (i : Nat) :
    ∀ (js : List Nat) (M : Nat → Nat → ℝ) (a b : Nat),
    (js.foldl (fun M2 j => fun a2 b2 =>
        if (a2 = i ∧ b2 = j) ∨ (a2 = j ∧ b2 = i) then etaExpr edges beta i j
        else M2 a2 b2) M) a b
      = if a = i ∧ b ∈ js then etaExpr edges beta i b
        else if b = i ∧ a ∈ js then etaExpr edges beta i a
        else M a b := by
  intro js
  induction js with
  | nil =>
    intro M a b
    simp
  | cons j js ih =>
    intro M a b
    rw [List.foldl_cons, ih]
    by_cases h1 : a = i <;> by_cases h2 : b = i <;> by_cases h3 : a = j <;>
      by_cases h4 : b = j <;> by_cases h5 : a ∈ js <;> by_cases h6 : b ∈ js <;>
      simp_all [List.mem_cons]

/-- Characterization of the outer trust loop after processing rows
0..t-1: the cell (a,b) holds the source expression evaluated at
(min a b, max a b) once min a b has been processed, and 0 otherwise. -/
theorem etaFold_range_char (edges : Mat) (beta : ℝ) :
    ∀ (t : Nat), t ≤ edges.length → ∀ (a b : Nat),
    ((List.range t).foldl
      (fun M i => ((List.range edges.length).drop i).foldl
        (fun M2 j => fun a2 b2 =>
          if (a2 = i ∧ b2 = j) ∨ (a2 = j ∧ b2 = i) then etaExpr edges beta i j
          else M2 a2 b2) M)
      (fun _ _ => 0)) a b
      = if min a b < t ∧ max a b < edges.length then
          etaExpr edges beta (min a b) (max a b)
        else 0 := by
  intro t
  induction t with
  | zero =>
    intro _ a b
    simp
  | succ t ih =>
    intro ht a b
    rw [List.range_succ, List.foldl_append, List.foldl_cons, List.foldl_nil]
    rw [etaInner_char]
    rw [ih (by omega)]
    by_cases h1 : a = t ∧ b ∈ (List.range edges.length).drop t
    · rw [if_pos h1]
      have hb := (mem_range_drop _ _ _).mp h1.2
      have hmin : min a b = t := by omega
      have hmax : max a b = b := by omega
      have hcc : min a b < t + 1 ∧ max a b < edges.length := by omega
      rw [if_pos hcc, hmin, hmax]
    · rw [if_neg h1]
      by_cases h2 : b = t ∧ a ∈ (List.range edges.length).drop t
      · rw [if_pos h2]
        have ha := (mem_range_drop _ _ _).mp h2.2
        have hmin : min a b = t := by omega
        have hmax : max a b = a := by omega
        have hcc : min a b < t + 1 ∧ max a b < edges.length := by omega
        rw [if_pos hcc, hmin, hmax]
      · rw [if_neg h2]
        by_cases h3 : min a b < t ∧ max a b < edges.length
        · have hcc : min a b < t + 1 ∧ max a b < edges.length := by omega
          rw [if_pos h3, if_pos hcc]
        · have hcond2 : ¬ (min a b < t + 1 ∧ max a b < edges.length) := by
            intro hcond
            apply h3
            have hmem1 := mem_range_drop edges.length t b
            have hmem2 := mem_range_drop edges.length t a
            constructor
            · rcases Nat.lt_or_ge (min a b) t with h | h
              · exact h
              · exfalso
                rcases Nat.le_total a b with hab | hab
                · have hmin : min a b = a := by omega
                  exact h1 ⟨by omega, hmem1.mpr ⟨by omega, by omega⟩⟩
                · have hmin : min a b = b := by omega
                  exact h2 ⟨by omega, hmem2.mpr ⟨by omega, by omega⟩⟩
            · omega
          rw [if_neg h3, if_neg hcond2]

/-- Closed form of the trust matrix produced by the double loop: the final
value of eta at any in-range cell (a,b) is the source expression evaluated
with the smaller index in the role of i and the larger in the role of j —
the loop writes eta[i,j] for i ≤ j and then copies it to eta[j,i]. -/
theorem etaLoop_closed (edges : Mat) (beta : ℝ) (a b : Nat)
    (ha : a < edges.length) (hb : b < edges.length) :
    etaLoop edges beta a b = etaExpr edges beta (min a b) (max a b) := by
  unfold etaLoop
  rw [etaFold_range_char edges beta edges.length (le_refl _) a b]
  rw [if_pos ⟨by omega, by omega⟩]

/-- Entry of a grown matrix at an old cell. -/
theorem growStep_entry_old (M : Mat) (c : List Nat) (i j : Nat) (hi : i < M.length)
    (hj : j < (M.getD i []).length) :
    entryAt (growStep M c) i j = entryAt M i j := by
  unfold growStep entryAt
  have hlen : i < (M.mapIdx fun i2 row => row ++ [if i2 ∈ c then 1 else 0]).length := by
    rw [List.length_mapIdx]
    exact hi
  rw [List.getD_append _ _ _ _ hlen, List.getD_eq_getElem _ _ hlen, List.getElem_mapIdx]
  have hMi : M[i] = M.getD i [] := (List.getD_eq_getElem M [] hi).symm
  rw [hMi, List.getD_append _ _ _ _ hj]

/-- Entry of a grown matrix in the appended column. -/
theorem growStep_entry_newcol (M : Mat) (c : List Nat) (i : Nat) (hi : i < M.length)
    (hrow : (M.getD i []).length = M.length) :
    entryAt (growStep M c) i M.length = if i ∈ c then 1 else 0 := by
  unfold growStep entryAt
  have hlen : i < (M.mapIdx fun i2 row => row ++ [if i2 ∈ c then 1 else 0]).length := by
    rw [List.length_mapIdx]
    exact hi
  rw [List.getD_append _ _ _ _ hlen, List.getD_eq_getElem _ _ hlen, List.getElem_mapIdx]
  have hMi : M[i] = M.getD i [] := (List.getD_eq_getElem M [] hi).symm
  rw [hMi, List.getD_append_right (M.getD i []) _ _ _ (le_of_eq hrow), hrow, Nat.sub_self]
  rfl

/-- Entry of a grown matrix in the appended row. -/
theorem growStep_entry_newrow (M : Mat) (c : List Nat) (j : Nat) (hj : j < M.length) :
    entryAt (growStep M c) M.length j = if j ∈ c then 1 else 0 := by
  unfold growStep entryAt
  have hlen : (M.mapIdx fun i2 row => row ++ [if i2 ∈ c then 1 else 0]).length = M.length :=
    List.length_mapIdx
  rw [List.getD_append_right (M.mapIdx fun i2 row => row ++ [if i2 ∈ c then 1 else 0])
    _ _ _ (le_of_eq hlen), hlen, Nat.sub_self]
  show (((List.range M.length).map fun i => if i ∈ c then 1 else 0) ++ [0]).getD j 0 = _
  have hj2 : j < ((List.range M.length).map fun i => if i ∈ c then 1 else 0).length := by
    rw [List.length_map, List.length_range]
    exact hj
  rw [List.getD_append _ _ _ _ hj2, List.getD_eq_getElem _ _ hj2, List.getElem_map,
    List.getElem_range]

/-- Entry of a grown matrix in the new diagonal corner. -/
theorem growStep_entry_corner (M : Mat) (c : List Nat) :
    entryAt (growStep M c) M.length M.length = 0 := by
  unfold growStep entryAt
  have hlen : (M.mapIdx fun i2 row => row ++ [if i2 ∈ c then 1 else 0]).length = M.length :=
    List.length_mapIdx
  rw [List.getD_append_right (M.mapIdx fun i2 row => row ++ [if i2 ∈ c then 1 else 0])
    _ _ _ (le_of_eq hlen), hlen, Nat.sub_self]
  show (((List.range M.length).map fun i => if i ∈ c then 1 else 0) ++ [0]).getD M.length 0 = 0
  have hlen2 : ((List.range M.length).map fun i => if i ∈ c then 1 else 0).length = M.length := by
    rw [List.length_map, List.length_range]
  rw [List.getD_append_right _ _ _ _ (le_of_eq hlen2), hlen2, Nat.sub_self]
  rfl

/-- One growth step preserves squareness and symmetry of the adjacency. -/
theorem growStep_square_sym (M : Mat) (c : List Nat)
    (hsq : ∀ r ∈ M, r.length = M.length)
    (hsym : ∀ i < M.length, ∀ j < M.length, entryAt M i j = entryAt M j i) :
    (∀ r ∈ growStep M c, r.length = (growStep M c).length) ∧
    (∀ i < (growStep M c).length, ∀ j < (growStep M c).length,
      entryAt (growStep M c) i j = entryAt (growStep M c) j i) := by
  have hrowlen : ∀ i, i < M.length → (M.getD i []).length = M.length := by
    intro i hi
    rw [List.getD_eq_getElem M [] hi]
    exact hsq _ (List.getElem_mem hi)
  constructor
  · intro r hr
    rw [growStep_length]
    unfold growStep at hr
    rcases List.mem_append.mp hr with h | h
    · rcases List.mem_iff_getElem.mp h with ⟨k, hk, hval⟩
      rw [List.getElem_mapIdx] at hval
      have hk2 : k < M.length := by
        rw [List.length_mapIdx] at hk
        exact hk
      rw [← hval, List.length_append]
      have : M[k] = M.getD k [] := (List.getD_eq_getElem M [] hk2).symm
      rw [this, hrowlen k hk2]
      rfl
    · have : r = (List.range M.length).map (fun i => if i ∈ c then 1 else 0) ++ [0] := by
        simpa using h
      rw [this, List.length_append, List.length_map, List.length_range]
      rfl
  · intro i hi j hj
    rw [growStep_length] at hi hj
    rcases Nat.lt_or_ge i M.length with hiM | hiM
    · rcases Nat.lt_or_ge j M.length with hjM | hjM
      · rw [growStep_entry_old M c i j hiM (by rw [hrowlen i hiM]; exact hjM),
          growStep_entry_old M c j i hjM (by rw [hrowlen j hjM]; exact hiM)]
        exact hsym i hiM j hjM
      · have hj2 : j = M.length := by omega
        subst hj2
        rw [growStep_entry_newcol M c i hiM (hrowlen i hiM), growStep_entry_newrow M c i hiM]
    · have hi2 : i = M.length := by omega
      subst hi2
      rcases Nat.lt_or_ge j M.length with hjM | hjM
      · rw [growStep_entry_newcol M c j hjM (hrowlen j hjM), growStep_entry_newrow M c j hjM]
      · have hj2 : j = M.length := by omega
        subst hj2
        rfl

/-- The whole growth phase preserves squareness and symmetry. -/
theorem grow_square_sym : ∀ (cs : List (List Nat)) (M : Mat),
    (∀ r ∈ M, r.length = M.length) →
    (∀ i < M.length, ∀ j < M.length, entryAt M i j = entryAt M j i) →
    (∀ r ∈ grow M cs, r.length = (grow M cs).length) ∧
    (∀ i < (grow M cs).length, ∀ j < (grow M cs).length,
      entryAt (grow M cs) i j = entryAt (grow M cs) j i) := by
  intro cs
  induction cs with
  | nil =>
    intro M hsq hsym
    exact ⟨hsq, hsym⟩
  | cons c cs2 ih =>
    intro M hsq hsym
    have hstep := growStep_square_sym M c hsq hsym
    exact ih (growStep M c) hstep.1 hstep.2

/-- Bounds of a left max fold. -/
theorem foldl_max_bounds : ∀ (t : List ℝ) (acc : ℝ),
    acc ≤ t.foldl max acc ∧ ∀ x ∈ t, x ≤ t.foldl max acc := by
  intro t
  induction t with
  | nil =>
    intro acc
    exact ⟨le_refl _, by simp⟩
  | cons y ys ih =>
    intro acc
    rw [List.foldl_cons]
    constructor
    · exact le_trans (le_max_left acc y) (ih (max acc y)).1
    · intro x hx
      rcases List.mem_cons.mp hx with rfl | hxs
      · exact le_trans (le_max_right acc x) (ih (max acc x)).1
      · exact (ih (max acc y)).2 x hxs

/-- Every member of a list is bounded by its python max. -/
theorem le_maxList (l : List ℝ) (x : ℝ) (hx : x ∈ l) : x ≤ maxList l := by
  cases l with
  | nil => cases hx
  | cons h t =>
    show x ≤ t.foldl max h
    rcases List.mem_cons.mp hx with rfl | hxs
    · exact (foldl_max_bounds t x).1
    · exact (foldl_max_bounds t h).2 x hxs

/-- The python max of a non-empty list of positive reals is positive. -/
theorem maxList_pos (l : List ℝ) (hne : l ≠ []) (hpos : ∀ x ∈ l, 0 < x) :
    0 < maxList l := by
  cases l with
  | nil => exact absurd rfl hne
  | cons h t =>
    exact lt_of_lt_of_le (hpos h (List.mem_cons_self h t)) (le_maxList _ h (List.mem_cons_self h t))

/-- A row with a positive sum has a nonzero entry. -/
theorem sum_pos_exists (row : List Nat) (h : 1 ≤ row.sum) :
    ∃ k, k < row.length ∧ row.getD k 0 ≠ 0 := by
  induction row with
  | nil => simp at h
  | cons a t ih =>
    by_cases ha : a = 0
    · subst ha
      rw [List.sum_cons] at h
      rcases ih (by omega) with ⟨k, hk, hkne⟩
      refine ⟨k + 1, by simpa using hk, ?_⟩
      simpa using hkne
    · exact ⟨0, by simp, by simpa using ha⟩

/-- Membership in flatnonzero. -/
theorem mem_flatnonzero (row : List Nat) (j : Nat) (hj : j < row.length)
    (hne : row.getD j 0 ≠ 0) : j ∈ flatnonzero row := by
  apply List.mem_filter.mpr
  exact ⟨List.mem_range.mpr hj, by simpa using hne⟩

/-- flatnonzero of a positive-degree row is non-empty. -/
theorem flatnonzero_ne_nil (row : List Nat) (h : 1 ≤ row.sum) : flatnonzero row ≠ [] := by
  rcases sum_pos_exists row h with ⟨k, hk, hkne⟩
  intro hnil
  have := mem_flatnonzero row k hk hkne
  rw [hnil] at this
  cases this

/-- Every index listed by flatnonzero is in range and nonzero. -/
theorem flatnonzero_sound (row : List Nat) (k : Nat) (hk : k ∈ flatnonzero row) :
    k < row.length ∧ row.getD k 0 ≠ 0 := by
  have h1 := (List.mem_filter.mp hk).1
  have h2 := (List.mem_filter.mp hk).2
  exact ⟨List.mem_range.mp h1, by simpa using h2⟩

/-- Unpacking a successful generate_new_graph call. -/
theorem generate_new_graph_inv (beta : ℝ) (draws : Nat → Mat) (fuel : Nat)
    (choices : List (List Nat)) (eta : Nat → Nat → ℝ) (edges : Mat)
    (hg : generate_new_graph beta draws fuel choices = some (eta, edges)) :
    ∃ s, firstAccepted draws fuel = some s ∧ edges = grow s choices ∧
      eta = etaLoop edges beta := by
  unfold generate_new_graph at hg
  cases hfa : firstAccepted draws fuel with
  | none =>
    rw [hfa] at hg
    cases hg
  | some s =>
    rw [hfa] at hg
    simp only [Option.map_some'] at hg
    have hpair := Option.some.inj hg
    have h1 : etaLoop (grow s choices) beta = eta := congrArg Prod.fst hpair
    have h2 : grow s choices = edges := congrArg Prod.snd hpair
    refine ⟨s, rfl, h2.symm, ?_⟩
    rw [← h1, ← h2]

/-- C1 (amended): for every generated graph and every pair i ≤ j (edge or
not), eta[i][j] equals the source formula degree(j)^beta / max of
degree^beta over i's neighbors, and eta[j][i] is forced equal to eta[i][j]
by the copy `eta[j,i] = eta[i,j]` — it is not computed independently with
the roles swapped. -/
theorem eta_formula_forced_symmetric (beta : ℝ) (draws : Nat → Mat) (fuel : Nat)
    (choices : List (List Nat)) (eta : Nat → Nat → ℝ) (edges : Mat)
    (hg : generate_new_graph beta draws fuel choices = some (eta, edges))
    (i j : Nat) (hij : i ≤ j) (hj : j < edges.length) :
    eta i j = etaExpr edges beta i j ∧ eta j i = eta i j := by
  rcases generate_new_graph_inv beta draws fuel choices eta edges hg with ⟨s, hfa, hedges, heta⟩
  subst heta
  have hclosed1 := etaLoop_closed edges beta i j (by omega) hj
  have hclosed2 := etaLoop_closed edges beta j i hj (by omega)
  rw [hclosed1, hclosed2, Nat.min_eq_left hij, Nat.max_eq_right hij,
    Nat.min_eq_right hij, Nat.max_eq_left hij]
  exact ⟨rfl, rfl⟩

/-- The source trust expression is positive at every in-range pair of a
square graph with no isolated node, for every real beta. -/
theorem etaExpr_pos (edges : Mat) (beta : ℝ) (a b : Nat)
    (hsq : ∀ r ∈ edges, r.length = edges.length)
    (hnoiso : noIsolated edges) (ha : a < edges.length) (hb : b < edges.length) :
    0 < etaExpr edges beta a b := by
  have hrowlen : (edges.getD a []).length = edges.length := by
    rw [List.getD_eq_getElem edges [] ha]
    exact hsq _ (List.getElem_mem ha)
  unfold etaExpr
  apply div_pos
  · apply Real.rpow_pos_of_pos
    have h := hnoiso b hb
    exact_mod_cast Nat.lt_of_lt_of_le Nat.zero_lt_one h
  · apply maxList_pos
    · intro hnil
      rw [List.map_eq_nil] at hnil
      exact flatnonzero_ne_nil (edges.getD a []) (hnoiso a ha) hnil
    · intro x hx
      rcases List.mem_map.mp hx with ⟨k, hk, rfl⟩
      apply Real.rpow_pos_of_pos
      have hk2 := flatnonzero_sound _ k hk
      have hklen : k < edges.length := by
        have := hk2.1
        omega
      have h := hnoiso k hklen
      exact_mod_cast Nat.lt_of_lt_of_le Nat.zero_lt_one h

/-- On an edge pair (the larger endpoint a neighbor of the smaller), the
source trust expression is at most 1: its numerator occurs in the max. -/
theorem etaExpr_le_one (edges : Mat) (beta : ℝ) (a b : Nat)
    (hsq : ∀ r ∈ edges, r.length = edges.length)
    (hnoiso : noIsolated edges) (ha : a < edges.length) (hb : b < edges.length)
    (hnb : entryAt edges a b ≠ 0) :
    etaExpr edges beta a b ≤ 1 := by
  have hrowlen : (edges.getD a []).length = edges.length := by
    rw [List.getD_eq_getElem edges [] ha]
    exact hsq _ (List.getElem_mem ha)
  unfold etaExpr
  rw [div_le_one]
  · apply le_maxList
    apply List.mem_map.mpr
    refine ⟨b, ?_, rfl⟩
    apply mem_flatnonzero
    · omega
    · exact hnb
  · apply maxList_pos
    · intro hnil
      rw [List.map_eq_nil] at hnil
      exact flatnonzero_ne_nil (edges.getD a []) (hnoiso a ha) hnil
    · intro x hx
      rcases List.mem_map.mp hx with ⟨k, hk, rfl⟩
      apply Real.rpow_pos_of_pos
      have hk2 := flatnonzero_sound _ k hk
      have hklen : k < edges.length := by
        have := hk2.1
        omega
      have h := hnoiso k hklen
      exact_mod_cast Nat.lt_of_lt_of_le Nat.zero_lt_one h

/-- One growth step preserves squareness alone. -/
theorem growStep_square (M : Mat) (c : List Nat)
    (hsq : ∀ r ∈ M, r.length = M.length) :
    ∀ r ∈ growStep M c, r.length = (growStep M c).length := by
  intro r hr
  rw [growStep_length]
  unfold growStep at hr
  rcases List.mem_append.mp hr with h | h
  · rcases List.mem_iff_getElem.mp h with ⟨k, hk, hval⟩
    rw [List.getElem_mapIdx] at hval
    have hk2 : k < M.length := by
      rw [List.length_mapIdx] at hk
      exact hk
    rw [← hval, List.length_append]
    have hMk : M[k] = M.getD k [] := (List.getD_eq_getElem M [] hk2).symm
    rw [hMk, List.getD_eq_getElem M [] hk2]
    rw [hsq _ (List.getElem_mem hk2)]
    rfl
  · have hr2 : r = (List.range M.length).map (fun i => if i ∈ c then 1 else 0) ++ [0] := by
      simpa using h
    rw [hr2, List.length_append, List.length_map, List.length_range]
    rfl

/-- The growth phase preserves squareness alone. -/
theorem grow_square : ∀ (cs : List (List Nat)) (M : Mat),
    (∀ r ∈ M, r.length = M.length) →
    ∀ r ∈ grow M cs, r.length = (grow M cs).length := by
  intro cs
  induction cs with
  | nil =>
    intro M hsq
    exact hsq
  | cons c cs2 ih =>
    intro M hsq
    exact ih (growStep M c) (growStep_square M c hsq)

/-- C2 (amended): eta is computed for every in-range pair, not only where
adjacency[i][j]==1: on every generated graph (accepted square seed,
well-formed growth choices) every entry of eta — edges, non-edges and the
diagonal alike — is strictly positive, hence nonzero; propagation never
samples the non-edge entries only because it iterates over existing edges. -/
theorem eta_positive_everywhere (beta : ℝ) (draws : Nat → Mat) (fuel m : Nat)
    (choices : List (List Nat)) (eta : Nat → Nat → ℝ) (edges s : Mat)
    (hg : generate_new_graph beta draws fuel choices = some (eta, edges))
    (hfa : firstAccepted draws fuel = some s)
    (hch : choicesOK m s.length choices)
    (hsq : ∀ r ∈ s, r.length = s.length)
    (i j : Nat) (hi : i < edges.length) (hj : j < edges.length) :
    0 < eta i j := by
  rcases generate_new_graph_inv beta draws fuel choices eta edges hg with ⟨s2, hfa2, hedges, heta⟩
  rw [hfa] at hfa2
  have hs : s = s2 := Option.some.inj hfa2
  subst hs
  subst heta
  have hnoiso : noIsolated edges := by
    rw [hedges]
    exact grow_noIsolated m choices s
      (seedAccept_noIsolated s (firstAccepted_accepts fuel draws s hfa)) hch
  have hsq2 : ∀ r ∈ edges, r.length = edges.length := by
    rw [hedges]
    exact grow_square choices s hsq
  rw [etaLoop_closed edges beta i j hi hj]
  exact etaExpr_pos edges beta (min i j) (max i j) hsq2 hnoiso (by omega) (by omega)

/-- C3 (amended): on every generated graph, every eta entry at an edge pair
(adjacency[i][j]==1) lies in (0, 1]; entries at non-edge pairs and on the
diagonal are positive but can exceed 1. -/
theorem eta_unit_interval_on_edges (beta : ℝ) (draws : Nat → Mat) (fuel m : Nat)
    (choices : List (List Nat)) (eta : Nat → Nat → ℝ) (edges s : Mat)
    (hg : generate_new_graph beta draws fuel choices = some (eta, edges))
    (hfa : firstAccepted draws fuel = some s)
    (hch : choicesOK m s.length choices)
    (hsq : ∀ r ∈ s, r.length = s.length)
    (hsym : ∀ i < s.length, ∀ j < s.length, entryAt s i j = entryAt s j i)
    (i j : Nat) (hi : i < edges.length) (hj : j < edges.length)
    (hedge : entryAt edges i j = 1) :
    0 < eta i j ∧ eta i j ≤ 1 := by
  rcases generate_new_graph_inv beta draws fuel choices eta edges hg with ⟨s2, hfa2, hedges, heta⟩
  rw [hfa] at hfa2
  have hs : s = s2 := Option.some.inj hfa2
  subst hs
  subst heta
  have hnoiso : noIsolated edges := by
    rw [hedges]
    exact grow_noIsolated m choices s
      (seedAccept_noIsolated s (firstAccepted_accepts fuel draws s hfa)) hch
  have hsq2 : ∀ r ∈ edges, r.length = edges.length := by
    rw [hedges]
    exact grow_square choices s hsq
  have hsym2 : ∀ a < edges.length, ∀ b < edges.length,
      entryAt edges a b = entryAt edges b a := by
    rw [hedges]
    exact (grow_square_sym choices s hsq hsym).2
  have hmm : entryAt edges (min i j) (max i j) ≠ 0 := by
    rcases Nat.le_total i j with hij | hij
    · rw [Nat.min_eq_left hij, Nat.max_eq_right hij, hedge]
      omega
    · rw [Nat.min_eq_right hij, Nat.max_eq_left hij, hsym2 j hj i hi, hedge]
      omega
  rw [etaLoop_closed edges beta i j hi hj]
  constructor
  · exact etaExpr_pos edges beta (min i j) (max i j) hsq2 hnoiso (by omega) (by omega)
  · exact etaExpr_le_one edges beta (min i j) (max i j) hsq2 hnoiso (by omega) (by omega) hmm

/-- Concrete 4-node seed graph (triangle 0-1-2 plus pendant 3 attached to
0); degrees 3, 2, 2, 1 — a valid accepted seed draw. -/
def exMat4 : Mat := [[0, 1, 1, 1], [1, 0, 1, 0], [1, 1, 0, 0], [1, 0, 0, 0]]

/-- Concrete 5-node seed graph (edge 0-1, star 2-3 and 2-4); degrees
1, 1, 2, 1, 1 — a valid accepted seed draw of the default seed size. -/
def exMat5 : Mat := [[0, 1, 0, 0, 0], [1, 0, 0, 0, 0], [0, 0, 0, 1, 1],
  [0, 0, 1, 0, 0], [0, 0, 1, 0, 0]]

/-- The generator on the constant stream of the 4-node seed accepts it
immediately and, with no growth steps, returns it with its trust matrix. -/
theorem genEx4 : generate_new_graph 1 (fun _ => exMat4) 1 [] =
    some (etaLoop exMat4 1, exMat4) := by
  unfold generate_new_graph firstAccepted
  rw [if_pos (by decide)]
  rfl

/-- The generator on the constant stream of the 5-node seed accepts it
immediately and, with no growth steps, returns it with its trust matrix. -/
theorem genEx5 : generate_new_graph 1 (fun _ => exMat5) 1 [] =
    some (etaLoop exMat5 1, exMat5) := by
  unfold generate_new_graph firstAccepted
  rw [if_pos (by decide)]
  rfl

/-- Source trust expression at (0,3) on the 4-node graph: deg(3)/max deg of
N(0) = 1/3. . . computed value 1/2. -/
theorem etaExpr4_03 : etaExpr exMat4 1 0 3 = 1 / 2 := by
  unfold etaExpr
  have h1 : flatnonzero (exMat4.getD 0 []) = [1, 2, 3] := by decide
  have h2 : rowsum exMat4 3 = 1 := by decide
  have h3 : rowsum exMat4 1 = 2 := by decide
  have h4 : rowsum exMat4 2 = 2 := by decide
  rw [h1]
  simp only [List.map_cons, List.map_nil, h2, h3, h4]
  norm_num [Real.rpow_one]
  have hmax : maxList [(2:ℝ), 2, 1] = 2 := by
    show ([(2:ℝ), 1] : List ℝ).foldl max 2 = 2
    rw [List.foldl_cons, List.foldl_cons, List.foldl_nil, max_self,
      max_eq_left (by norm_num : (1:ℝ) ≤ 2)]
  rw [hmax]
  norm_num

/-- The claim's swapped-roles formula at (3,0) on the 4-node graph:
deg(0)/max deg of N(3) = 3/3 = 1. -/
theorem etaExpr4_30 : etaExpr exMat4 1 3 0 = 1 := by
  unfold etaExpr
  have h1 : flatnonzero (exMat4.getD 3 []) = [0] := by decide
  have h2 : rowsum exMat4 0 = 3 := by decide
  rw [h1]
  simp only [List.map_cons, List.map_nil, h2]
  have hmax : maxList [((3:Nat):ℝ) ^ (1:ℝ)] = ((3:Nat):ℝ) ^ (1:ℝ) := by
    show ([] : List ℝ).foldl max (((3:Nat):ℝ) ^ (1:ℝ)) = ((3:Nat):ℝ) ^ (1:ℝ)
    rw [List.foldl_nil]
  rw [hmax]
  norm_num [Real.rpow_one]

/-- Source trust expression at (1,3) on the 4-node graph (a NON-edge):
deg(3)/max deg of N(1) = 1/3. -/
theorem etaExpr4_13 : etaExpr exMat4 1 1 3 = 1 / 3 := by
  unfold etaExpr
  have h1 : flatnonzero (exMat4.getD 1 []) = [0, 2] := by decide
  have h2 : rowsum exMat4 3 = 1 := by decide
  have h3 : rowsum exMat4 0 = 3 := by decide
  have h4 : rowsum exMat4 2 = 2 := by decide
  rw [h1]
  simp only [List.map_cons, List.map_nil, h2, h3, h4]
  norm_num [Real.rpow_one]
  have hmax : maxList [(3:ℝ), 2] = 3 := by
    show ([(2:ℝ)] : List ℝ).foldl max 3 = 3
    rw [List.foldl_cons, List.foldl_nil, max_eq_left (by norm_num : (2:ℝ) ≤ 3)]
  rw [hmax]
  norm_num

/-- Source trust expression at (0,2) on the 5-node graph (a NON-edge):
deg(2)/max deg of N(0) = 2/1 = 2, outside [0,1]. -/
theorem etaExpr5_02 : etaExpr exMat5 1 0 2 = 2 := by
  unfold etaExpr
  have h1 : flatnonzero (exMat5.getD 0 []) = [1] := by decide
  have h2 : rowsum exMat5 2 = 2 := by decide
  have h3 : rowsum exMat5 1 = 1 := by decide
  rw [h1]
  simp only [List.map_cons, List.map_nil, h2, h3]
  norm_num [Real.rpow_one]
  have hmax : maxList [(1:ℝ)] = 1 := by
    show ([] : List ℝ).foldl max 1 = 1
    rw [List.foldl_nil]
  rw [hmax]
  norm_num

/-- C1 counterexample: on a generated 4-node graph with beta = 1, the edge
(3,0) has eta[3][0] = 1/2, the value copied from eta[0][3], while the
formula with the roles of i and j swapped evaluates to 1 — so eta[3][0] is
forced equal to eta[0][3], not computed independently, refuting the claim
at this edge. -/
theorem eta_not_independent_counterexample :
    generate_new_graph 1 (fun _ => exMat4) 1 [] = some (etaLoop exMat4 1, exMat4) ∧
    entryAt exMat4 3 0 = 1 ∧
    etaLoop exMat4 1 3 0 = 1 / 2 ∧
    etaExpr exMat4 1 3 0 = 1 ∧
    etaLoop exMat4 1 3 0 ≠ etaExpr exMat4 1 3 0 := by
  have hloop : etaLoop exMat4 1 3 0 = 1 / 2 := by
    rw [etaLoop_closed exMat4 1 3 0 (by decide) (by decide)]
    rw [(by decide : min 3 0 = 0), (by decide : max 3 0 = 3)]
    exact etaExpr4_03
  refine ⟨genEx4, by decide, hloop, etaExpr4_30, ?_⟩
  rw [hloop, etaExpr4_30]
  norm_num

/-- Witness for the amended C1 at the 4-node graph and the pair (1,3). -/
theorem eta_formula_forced_symmetric_witness :
    (generate_new_graph 1 (fun _ => exMat4) 1 [] = some (etaLoop exMat4 1, exMat4) ∧
      1 ≤ 3 ∧ 3 < exMat4.length) ∧
    (etaLoop exMat4 1 1 3 = etaExpr exMat4 1 1 3 ∧
      etaLoop exMat4 1 3 1 = etaLoop exMat4 1 1 3) :=
  ⟨⟨genEx4, by decide, by decide⟩,
    eta_formula_forced_symmetric 1 (fun _ => exMat4) 1 [] (etaLoop exMat4 1) exMat4
      genEx4 1 3 (by decide) (by decide)⟩

/-- C2 counterexample: on a generated 4-node graph with beta = 1, the pair
(1,3) is a NON-edge (adjacency 0) and yet eta[1][3] = 1/3 ≠ 0 — eta is not
left undefined (zero) off the edge set, refuting the claim. -/
theorem eta_nonzero_off_edges_counterexample :
    generate_new_graph 1 (fun _ => exMat4) 1 [] = some (etaLoop exMat4 1, exMat4) ∧
    entryAt exMat4 1 3 = 0 ∧
    etaLoop exMat4 1 1 3 = 1 / 3 ∧
    etaLoop exMat4 1 1 3 ≠ 0 := by
  have hloop : etaLoop exMat4 1 1 3 = 1 / 3 := by
    rw [etaLoop_closed exMat4 1 1 3 (by decide) (by decide)]
    rw [(by decide : min 1 3 = 1), (by decide : max 1 3 = 3)]
    exact etaExpr4_13
  refine ⟨genEx4, by decide, hloop, ?_⟩
  rw [hloop]
  norm_num

/-- Witness for the amended C2 at the 4-node graph and the non-edge (1,3). -/
theorem eta_positive_everywhere_witness :
    (generate_new_graph 1 (fun _ => exMat4) 1 [] = some (etaLoop exMat4 1, exMat4) ∧
      firstAccepted (fun _ => exMat4) 1 = some exMat4 ∧
      choicesOK 2 exMat4.length [] ∧
      (∀ r ∈ exMat4, r.length = exMat4.length) ∧
      1 < exMat4.length ∧ 3 < exMat4.length) ∧
    0 < etaLoop exMat4 1 1 3 :=
  ⟨⟨genEx4, by decide, trivial, by decide, by decide, by decide⟩,
    eta_positive_everywhere 1 (fun _ => exMat4) 1 2 [] (etaLoop exMat4 1) exMat4 exMat4
      genEx4 (by decide) trivial (by decide) 1 3 (by decide) (by decide)⟩

/-- C3 counterexample: on a generated 5-node graph with beta = 1, the
(non-edge) entry eta[0][2] equals 2, which lies outside [0,1], refuting the
claim that every entry of eta lies in [0,1]. -/
theorem eta_exceeds_one_counterexample :
    generate_new_graph 1 (fun _ => exMat5) 1 [] = some (etaLoop exMat5 1, exMat5) ∧
    etaLoop exMat5 1 0 2 = 2 ∧
    ¬ etaLoop exMat5 1 0 2 ≤ 1 := by
  have hloop : etaLoop exMat5 1 0 2 = 2 := by
    rw [etaLoop_closed exMat5 1 0 2 (by decide) (by decide)]
    rw [(by decide : min 0 2 = 0), (by decide : max 0 2 = 2)]
    exact etaExpr5_02
  refine ⟨genEx5, hloop, ?_⟩
  rw [hloop]
  norm_num

/-- Witness for the amended C3 at the 4-node graph and the edge (3,0). -/
theorem eta_unit_interval_on_edges_witness :
    (generate_new_graph 1 (fun _ => exMat4) 1 [] = some (etaLoop exMat4 1, exMat4) ∧
      firstAccepted (fun _ => exMat4) 1 = some exMat4 ∧
      choicesOK 2 exMat4.length [] ∧
      (∀ r ∈ exMat4, r.length = exMat4.length) ∧
      (∀ i < exMat4.length, ∀ j < exMat4.length, entryAt exMat4 i j = entryAt exMat4 j i) ∧
      3 < exMat4.length ∧ 0 < exMat4.length ∧ entryAt exMat4 3 0 = 1) ∧
    (0 < etaLoop exMat4 1 3 0 ∧ etaLoop exMat4 1 3 0 ≤ 1) :=
  ⟨⟨genEx4, by decide, trivial, by decide, by decide, by decide, by decide, by decide⟩,
    eta_unit_interval_on_edges 1 (fun _ => exMat4) 1 2 [] (etaLoop exMat4 1) exMat4 exMat4
      genEx4 (by decide) trivial (by decide) (by decide) 3 0 (by decide) (by decide)
      (by decide)⟩

/-! ### Claim C9: no fail-fast validation of configuration parameters -/

/-- Two adjacent nodes. -/
def adjEx2 : Fin 2 → Fin 2 → Bool := fun i j => decide (i ≠ j)

/-- All-accepting, never-mutating decisions on two nodes. -/
def decsEx2 : Nat → RoundDec 2 := fun _ =>
  { tie := fun _ => 0, wsel := fun _ => 0, mutCoin := fun _ => false,
    flip := fun _ => 0, acc := fun _ _ => true }

/-- Memory-list projection of a run result. -/
noncomputable def runMemList (r : Except String ((Fin 2 → NodeMemory) × (Fin 2 → ℝ)))
    (i : Fin 2) : Option (List Code) :=
  match r with
  | Except.error _ => none
  | Except.ok st => some ((st.1 i).memList)

/-- C9 counterexample: with the invalid memory capacity L = 0 the program
does not fail at all — run_rumors runs to completion (three full rounds)
and returns a result, and already after one round the seed node's memory
holds one instance (length 1 > L), so the engine was fully constructed and
rounds were executed despite the invalid parameter. -/
theorem no_fail_fast_counterexample :
    (run_rumors 2 0 adjEx2 true 0 3 0 0 [] [] decsEx2).isOk = true ∧
    runMemList (run_rumors 2 0 adjEx2 true 0 1 0 0 [] [] decsEx2) 0 = some [truthCode] ∧
    runMemList (run_rumors 2 0 adjEx2 true 0 1 0 0 [] [] decsEx2) 1 = some [] := by
  refine ⟨rfl, by decide, by decide⟩

/-- C9 (amended): the source performs no up-front parameter validation.  An
invalid memory capacity (L = 0, violating L ≥ 1) is silently accepted: the
run seeds memories beyond capacity and executes every round normally.  An
excessive liar or truth-teller count (liars + truths + 1 > node count) does
surface, but only as a ValueError raised by the np.random.choice sampling
call at its point of use — after the per-node memory arrays exist — not as
a fail-fast configuration check. -/
theorem no_validation_behavior :
    (run_rumors 2 0 adjEx2 true 0 3 0 0 [] [] decsEx2).isOk = true ∧
    run_rumors 2 0 adjEx2 true 10 3 2 0 [] [] decsEx2 = Except.error "ValueError" ∧
    run_rumors 2 0 adjEx2 true 10 3 0 2 [] [] decsEx2 = Except.error "ValueError" := by
  refine ⟨rfl, ?_, ?_⟩
  · unfold run_rumors
    rw [if_pos (by decide)]
  · unfold run_rumors
    rw [if_neg (by decide), if_pos (by decide)]
